import Mathlib

/-!
Verification development for the MIOpen solver sources
`src/solver/conv_winoRxS_ultra_f2x3.cpp` and
`src/solver/batchnorm/backward_spatial_single.cpp`.

The C++ code is shallowly embedded: unsigned machine integers become `Nat`
(with explicit `% 2^32` where 32-bit wrap-around is observable), signed
integers become `Int`, and the imperative loops become folds or
fuel-indexed recursion.  Definition names follow the source names.
-/

namespace WinoUltra

/-! ### Constants (conv_winoRxS_ultra_f2x3.cpp, lines 52-68) -/

def group_size : Nat := 64

def o_tile_W : Nat := 2

def o_tile_H : Nat := 2

def d_tile_W : Nat := 4

def d_tile_H : Nat := 4

/-- step is always based on the output tile size -/
def o_tile_step_W : Nat := o_tile_W

def o_tile_step_H : Nat := o_tile_H

def d_tile_step_W : Nat := o_tile_W

def d_tile_step_H : Nat := o_tile_H

/-- `group_size * d_tile_W / (sizeof(uint64_t) * CHAR_BIT)` = 4 -/
def d_clip_tiles_QW : Nat := group_size * d_tile_W / 64

/-- `group_size * o_tile_W / (sizeof(uint64_t) * CHAR_BIT)` = 2 -/
def o_clip_tiles_QW : Nat := group_size * o_tile_W / 64

/-- `struct work_info` (lines 70-78).  The two-dimensional mask arrays
`d_clip[d_clip_tiles_QW][d_tile_H]` and `o_clip[o_clip_tiles_QW][o_tile_H]`
are stored flattened, entry `[k][j]` at flat index `d_tile_H * k + j`
(resp. `o_tile_H * k + j`).  The `uint64_t` mask and flag accumulators are
`Nat`s; the generator performs exactly 64 shift-in steps per accumulator so
they stay below `2^64` (proved below). -/
structure work_info where
  d_load_offset_addr : Int
  o_store_offset_addr : Int
  step_1_pos : Nat
  step_2_pos : Nat
  d_clip : List Nat
  o_clip : List Nat
deriving DecidableEq, Repr

/-- Cursor state inside the per-descriptor lane loop: the local variables
`o_cur_w`, `o_cur_h`, `cur_n` of `WU_control_make_3x3_w_info` together with
the loop-local `d_cur_w`, `d_cur_h` (C `int`). -/
structure WU_cursor where
  o_cur_w : Nat
  o_cur_h : Nat
  d_cur_w : Int
  d_cur_h : Int
  cur_n : Nat
deriving DecidableEq, Repr

/-- One input-clip test (line 134-136):
`(d_cur_w + i < 0) || (W <= d_cur_w + i) || (d_cur_h + j < 0) || (H <= d_cur_h + j) || (cur_n < 0) || (N <= cur_n)`.
`cur_n` is unsigned in the source so `cur_n < 0` is identically false; it is
kept for shape fidelity. -/
def WU_d_clip_bit (N H W : Nat) (d_cur_w d_cur_h : Int) (cur_n : Nat) (i j : Nat) : Bool :=
  decide (d_cur_w + (i : Int) < 0) || decide ((W : Int) ≤ d_cur_w + (i : Int)) ||
  decide (d_cur_h + (j : Int) < 0) || decide ((H : Int) ≤ d_cur_h + (j : Int)) ||
  decide (cur_n < 0) || decide (N ≤ cur_n)

/-- One output-clip test (line 146-148); `o_cur_w`, `o_cur_h` are unsigned,
so `o_cur_w + i` is a `Nat` and the `< 0` tests are identically false. -/
def WU_o_clip_bit (N o_H o_W : Nat) (o_cur_w o_cur_h : Nat) (cur_n : Nat) (i j : Nat) : Bool :=
  decide (o_cur_w + i < 0) || decide (o_W ≤ o_cur_w + i) ||
  decide (o_cur_h + j < 0) || decide (o_H ≤ o_cur_h + j) ||
  decide (cur_n < 0) || decide (N ≤ cur_n)

/-- The mask-shift loops of one lane `n_tile` (lines 127-150).  The source
shifts `d_clip[k][j]` left and ORs in the new test bit for `i < d_tile_W`
(outer) and `j < d_tile_H` (inner), with `k = n_tile * d_tile_W / 64`;
similarly for `o_clip` with `k = n_tile * o_tile_W / 64`. -/
def WU_lane_clips (N H W o_H o_W : Nat) (n_tile : Nat) (c : WU_cursor) (wi : work_info) :
    work_info :=
  let kd := n_tile * d_tile_W / 64
  let dc := (List.range d_tile_W).foldl (fun acc i =>
      (List.range d_tile_H).foldl (fun acc2 j =>
        acc2.modify (fun q => 2 * q + (WU_d_clip_bit N H W c.d_cur_w c.d_cur_h c.cur_n i j).toNat)
          (d_tile_H * kd + j)) acc) wi.d_clip
  let ko := n_tile * o_tile_W / 64
  let oc := (List.range o_tile_W).foldl (fun acc i =>
      (List.range o_tile_H).foldl (fun acc2 j =>
        acc2.modify (fun q => 2 * q + (WU_o_clip_bit N o_H o_W c.o_cur_w c.o_cur_h c.cur_n i j).toNat)
          (o_tile_H * ko + j)) acc) wi.o_clip
  { wi with d_clip := dc, o_clip := oc }

/-- The cursor advance of one lane (lines 152-175), returning the new cursor
and the row-wrap / plane-wrap bits ORed into `step_1_pos` / `step_2_pos`.
Note the plane-wrap test `o_H <= o_cur_h` runs even when no row wrap
happened, exactly as in the source. -/
def WU_lane_advance (o_H o_W pad_H pad_W : Nat) (c : WU_cursor) : WU_cursor × Bool × Bool :=
  let d_w := c.d_cur_w + (d_tile_step_W : Int)
  let o_w := c.o_cur_w + o_tile_step_W
  if o_W ≤ o_w then
    -- o_cur_w = 0; d_cur_w = o_cur_w - pad_W; o_cur_h += step; d_cur_h += step
    let o_h := c.o_cur_h + o_tile_step_H
    let d_h := c.d_cur_h + (d_tile_step_H : Int)
    if o_H ≤ o_h then
      (⟨0, 0, 0 - (pad_W : Int), 0 - (pad_H : Int), c.cur_n + 1⟩, true, true)
    else
      (⟨0, o_h, 0 - (pad_W : Int), d_h, c.cur_n⟩, true, false)
  else
    if o_H ≤ c.o_cur_h then
      (⟨o_w, 0, d_w, 0 - (pad_H : Int), c.cur_n + 1⟩, false, true)
    else
      (⟨o_w, c.o_cur_h, d_w, c.d_cur_h, c.cur_n⟩, false, false)

/-- One full iteration of the lane loop body: masks, then cursor advance and
flag shift-in (the source shifts first and conditionally ORs 1, which is the
same as appending the wrap bit). -/
def WU_lane (N H W o_H o_W pad_H pad_W : Nat) (acc : work_info × WU_cursor) (n_tile : Nat) :
    work_info × WU_cursor :=
  let wi := WU_lane_clips N H W o_H o_W n_tile acc.2 acc.1
  let r := WU_lane_advance o_H o_W pad_H pad_W acc.2
  ({ wi with
      step_1_pos := 2 * wi.step_1_pos + r.2.1.toNat
      step_2_pos := 2 * wi.step_2_pos + r.2.2.toNat }, r.1)

/-- Outer loop state of `WU_control_make_3x3_w_info`: the variables
`o_cur_w`, `o_cur_h`, `cur_n` that survive across iterations (`d_cur_w`,
`d_cur_h` are recomputed from them at each iteration, lines 112-113). -/
structure WU_state where
  o_cur_w : Nat
  o_cur_h : Nat
  cur_n : Nat
deriving DecidableEq, Repr

/-- One iteration of the outer `while` loop (lines 107-206): build
`cur_w_i`, set the two offsets, run the 64 lanes, and return the descriptor
together with the cursor for the next iteration. -/
def WU_descriptor (N H W o_H o_W pad_H pad_W dsN dsH dsW osN osH osW : Nat) (s : WU_state) :
    work_info × WU_state :=
  let d_cur_w : Int := (s.o_cur_w : Int) - (pad_W : Int)
  let d_cur_h : Int := (s.o_cur_h : Int) - (pad_H : Int)
  let wi0 : work_info :=
    { d_load_offset_addr :=
        d_cur_w * (dsW : Int) + d_cur_h * (dsH : Int) + (s.cur_n : Int) * (dsN : Int)
      o_store_offset_addr :=
        (s.o_cur_w : Int) * (osW : Int) + (s.o_cur_h : Int) * (osH : Int) +
          (s.cur_n : Int) * (osN : Int)
      step_1_pos := 0
      step_2_pos := 0
      d_clip := List.replicate (d_clip_tiles_QW * d_tile_H) 0
      o_clip := List.replicate (o_clip_tiles_QW * o_tile_H) 0 }
  let r := (List.range group_size).foldl (WU_lane N H W o_H o_W pad_H pad_W)
      (wi0, ⟨s.o_cur_w, s.o_cur_h, d_cur_w, d_cur_h, s.cur_n⟩)
  (r.1, ⟨r.2.o_cur_w, r.2.o_cur_h, r.2.cur_n⟩)

/-- `(out_W + o_tile_step_W - 1) / o_tile_step_W` (line 693). -/
def WU_tiles_W (o_W : Nat) : Nat := (o_W + o_tile_step_W - 1) / o_tile_step_W

def WU_tiles_H (o_H : Nat) : Nat := (o_H + o_tile_step_H - 1) / o_tile_step_H

/-- Total number of 2x2 output tiles visited by the raster walk. -/
def WU_total_tiles (N o_H o_W : Nat) : Nat := N * WU_tiles_H o_H * WU_tiles_W o_W

/-- The outer `while ((o_cur_w < o_W) && (o_cur_h < o_H) && (cur_n < N))`
loop, written with explicit fuel.  Each iteration consumes 64 raster tiles,
so `WU_total_tiles + 1` units of fuel are more than enough; the counting
theorems below show the guard fails before the fuel runs out. -/
def WU_walk_go (N H W o_H o_W pad_H pad_W dsN dsH dsW osN osH osW : Nat) :
    Nat → WU_state → List work_info
  | 0, _ => []
  | fuel + 1, s =>
    if s.o_cur_w < o_W ∧ s.o_cur_h < o_H ∧ s.cur_n < N then
      let r := WU_descriptor N H W o_H o_W pad_H pad_W dsN dsH dsW osN osH osW s
      r.1 :: WU_walk_go N H W o_H o_W pad_H pad_W dsN dsH dsW osN osH osW fuel r.2
    else []

/-- `WU_control_make_3x3_w_info` (lines 80-207): the descriptor compiler. -/
def WU_control_make_3x3_w_info (N H W o_H o_W pad_H pad_W dsN dsH dsW osN osH osW : Nat) :
    List work_info :=
  WU_walk_go N H W o_H o_W pad_H pad_W dsN dsH dsW osN osH osW
    (WU_total_tiles N o_H o_W + 1) ⟨0, 0, 0⟩

/-! ### Interleaving (lines 315-319) -/

/-- The inner two loops of the interleave step, applied to one block
`blk = w_info[i .. i+intl*n_groups)`: for each `k < intl` take the elements
at block-local positions `j ≡ k (mod intl)` in increasing order. -/
def WU_interleave_block {α : Type} (blk : List α) (intl : Nat) : List α :=
  (List.range intl).flatMap (fun k =>
    ((List.range blk.length).filter (fun j => decide (j % intl = k))).filterMap
      (fun j => blk[j]?))

/-- The interleave step: the outer loop walks blocks of `intl * n_groups`
descriptors (`i += intl_factor * n_groups`) and permutes each (possibly
short final) block.  When `intl * n_groups = 0` the source loop would not
terminate; this embedding returns `[]` in that (never exercised) case. -/
def WU_interleave {α : Type} (l : List α) (intl n_groups : Nat) : List α :=
  let B := intl * n_groups
  (List.range ((l.length + B - 1) / B)).flatMap (fun b =>
    WU_interleave_block ((l.drop (B * b)).take B) intl)

/-! ### Bit encoding (`WU_control_w_info_bit_encode`, lines 209-280) -/

/-- C cast of the `int64_t` offsets to the `uint64_t` scatter source. -/
def uint64_of_int (x : Int) : Nat := (x % (2 ^ 64 : Int)).toNat

/-- The per-`j` qword selection of the encoder (lines 218-266): which
64-bit source value and bit order feed word-lane `j`.  Reading
`d_clip[k / d_tile_H][k % d_tile_H]` is flat index `k` in this embedding. -/
def WU_encode_qwords (w : work_info) (idx : Nat) : List (Nat × Bool) :=
  (List.range 32).map (fun j =>
    if j = 0 then (uint64_of_int w.d_load_offset_addr, false)
    else if j = 1 then (uint64_of_int w.o_store_offset_addr, false)
    else if j = 2 then (w.step_1_pos, true)
    else if j = 3 then (w.step_2_pos, true)
    else if 4 ≤ j ∧ j < 4 + d_clip_tiles_QW * d_tile_H then
      (w.d_clip.getD (j - 4) 0, true)
    else if 4 + d_clip_tiles_QW * d_tile_H ≤ j ∧
        j < 4 + d_clip_tiles_QW * d_tile_H + o_clip_tiles_QW * o_tile_H then
      (w.o_clip.getD (j - 4 - d_clip_tiles_QW * d_tile_H) 0, true)
    else if j = 24 then (idx, false)
    else (0, false))

/-- The inner `for k in 0..63` scatter loop for one qword (lines 267-273):
every destination word is shifted left once and receives exactly one source
bit; destination `m` receives source bit `m` (forward) or `63 - m`
(bit-reversed).  The source writes each of the 64 words exactly once per
qword, so the loop is this simultaneous map. -/
def WU_scatter_step (blk : List Nat) (q : Nat) (rev : Bool) : List Nat :=
  (List.range 64).map (fun m => 2 * blk.getD m 0 + (q.testBit (if rev then 63 - m else m)).toNat)

/-- The per-descriptor `block[64]` accumulation over the 32 qword lanes. -/
def WU_encode_block (qs : List (Nat × Bool)) : List Nat :=
  qs.foldl (fun blk p => WU_scatter_step blk p.1 p.2) (List.replicate 64 0)

/-- The 64 words emitted for descriptor `w` at sequence index `idx`. -/
def WU_encode_record (w : work_info) (idx : Nat) : List Nat :=
  WU_encode_block (WU_encode_qwords w idx)

/-- Sequential emission of the records, starting at sequence index `i`. -/
def WU_encode_from (i : Nat) : List work_info → List Nat
  | [] => []
  | w :: ws => WU_encode_record w i ++ WU_encode_from (i + 1) ws

/-- `WU_control_w_info_bit_encode` (lines 209-280). -/
def WU_control_w_info_bit_encode (ws : List work_info) : List Nat :=
  WU_encode_from 0 ws

/-- `WU_control_make_3x3` (lines 282-322): compile, interleave, encode. -/
def WU_control_make_3x3
    (N H W o_H o_W pad_H pad_W dsN dsH dsW osN osH osW n_groups intl_factor : Nat) :
    List Nat :=
  WU_control_w_info_bit_encode
    (WU_interleave (WU_control_make_3x3_w_info N H W o_H o_W pad_H pad_W dsN dsH dsW osN osH osW)
      intl_factor n_groups)

/-! ### Decoder for the documented lane/bit-order mapping (spec §4.3.3).
Used only by the round-trip theorems, never by the embedded code. -/

/-- Value with bits `f 0 .. f (n-1)` at positions `0 .. n-1`. -/
def qword_of_bits (f : Nat → Bool) : Nat → Nat
  | 0 => 0
  | n + 1 => qword_of_bits f n + (f n).toNat * 2 ^ n

/-- Decode the 64-bit qword of lane `j` from a 64-word record: bit `k` of
the qword is bit `31 - j` of word `k` (forward) or of word `63 - k`
(bit-reversed). -/
def WU_decode_qword (r : List Nat) (j : Nat) (rev : Bool) : Nat :=
  qword_of_bits (fun k => (r.getD (if rev then 63 - k else k) 0).testBit (31 - j)) 64

/-- Two's-complement reading of a 64-bit pattern. -/
def int64_of_uint64 (u : Nat) : Int :=
  if u < 2 ^ 63 then (u : Int) else (u : Int) - 2 ^ 64

def WU_decode_d_offset (r : List Nat) : Int := int64_of_uint64 (WU_decode_qword r 0 false)

def WU_decode_o_offset (r : List Nat) : Int := int64_of_uint64 (WU_decode_qword r 1 false)

def WU_decode_step_1 (r : List Nat) : Nat := WU_decode_qword r 2 true

def WU_decode_step_2 (r : List Nat) : Nat := WU_decode_qword r 3 true

def WU_decode_d_clip (r : List Nat) : List Nat :=
  (List.range (d_clip_tiles_QW * d_tile_H)).map (fun k => WU_decode_qword r (4 + k) true)

def WU_decode_o_clip (r : List Nat) : List Nat :=
  (List.range (o_clip_tiles_QW * o_tile_H)).map
    (fun k => WU_decode_qword r (4 + d_clip_tiles_QW * d_tile_H + k) true)

def WU_decode_index (r : List Nat) : Nat := WU_decode_qword r 24 false

/-- The 64-word record of descriptor `i` inside a control blob. -/
def WU_record (blob : List Nat) (i : Nat) : List Nat := (blob.drop (64 * i)).take 64

/-! ### Applicability of the Winograd Ultra solver (lines 337-561) -/

/-- The fields of `ConvolutionContext` (and its stream/device accessors)
read by `IsApplicableBase` and `IsShaderContraintsMet`.  C `int` fields are
`Int`, the unsigned compute-unit count is also kept as `Int` (it is only
compared against `2^16`). -/
structure ConvolutionContext where
  is2d : Bool
  isFp16 : Bool
  use_asm_kernels : Bool
  rmv_isV3 : Bool
  dir_isBackwardWrW : Bool
  dir_isBackwardData : Bool
  device_name : String
  kernel_stride_w : Int
  kernel_stride_h : Int
  kernel_dilation_w : Int
  kernel_dilation_h : Int
  bias : Int
  group_counts : Int
  in_layout : String
  n_inputs : Int
  n_outputs : Int
  kernel_size_h : Int
  kernel_size_w : Int
  in_height : Int
  in_width : Int
  out_height : Int
  out_width : Int
  batch_sz : Int
  pad_w : Int
  pad_h : Int
  backward_pad_w : Int
  backward_pad_h : Int
  max_hardware_compute_units : Int
  is_layout_default : Bool

/-- `IsShaderContraintsMet` (lines 337-379); `std::pow(2, 16)` is exactly
65536. -/
def IsShaderContraintsMet (p : ConvolutionContext) (R S C K H W OH OW Nb : Int) : Bool :=
  if p.dir_isBackwardData ∧ ¬(0 ≤ p.backward_pad_w ∧ p.backward_pad_w < 65536) then false
  else if p.dir_isBackwardData ∧ ¬(0 ≤ p.backward_pad_h ∧ p.backward_pad_h < 65536) then false
  else if ¬p.is_layout_default then false
  else
    decide (Nb = 1 ∧ C ≤ 16 ∧ K ≤ 16 ∧ H < 65536 ∧ W < 65536 ∧ OH < 65536 ∧ OW < 65536 ∧
      p.pad_w < 65536 ∧ p.pad_h < 65536 ∧ S ≤ 3 ∧ R ≤ 3 ∧
      p.max_hardware_compute_units < 65536)

/-- `IsApplicableBase` (lines 511-554). -/
def IsApplicableBase (p : ConvolutionContext) : Bool :=
  if ¬p.is2d then false
  else if ¬p.isFp16 then false
  else if ¬p.use_asm_kernels then false
  else if ¬p.rmv_isV3 then false
  else if p.dir_isBackwardWrW then false
  else if ¬(p.device_name.startsWith "gfx10") then false
  else if ¬(p.kernel_stride_w = 1 ∧ p.kernel_stride_w = p.kernel_stride_h ∧
      p.kernel_dilation_w = 1 ∧ p.kernel_dilation_h = 1 ∧ p.bias = 0 ∧
      p.group_counts = 1 ∧ p.in_layout = "NCHW") then false
  else
    IsShaderContraintsMet p p.kernel_size_h p.kernel_size_w
      (p.n_inputs.tdiv p.group_counts) (p.n_outputs.tdiv p.group_counts)
      p.in_height p.in_width p.out_height p.out_width p.batch_sz

/-- `ConvBinWinogradUltraRxSf2x3::IsApplicable` (lines 556-561); `disabled`
is the `MIOPEN_DEBUG_AMD_WINOGRAD_ULTRA_RXS_F2X3` environment switch. -/
def ConvBinWinogradUltraRxSf2x3_IsApplicable (disabled : Bool) (p : ConvolutionContext) : Bool :=
  if disabled then false else IsApplicableBase p

/-! ### Workspace sizing of the bound invocation (lines 563-568, 743-758) -/

/-- `ConvBinWinogradUltraRxSf2x3::GetWorkspaceSize` returns the constant
`8*1024` bytes regardless of the problem. -/
def ConvBinWinogradUltraRxSf2x3_GetWorkspaceSize : Nat := 8 * 1024

/-- The pre-dispatch workspace check of the invoker (line 748):
`(workspace == nullptr && workspace_req > 0) || workspaceSize < workspace_req`.
`true` means the invocation throws the explicit sizing error. -/
def ultra_workspace_guard_throws (workspace_null : Bool) (workspaceSize workspace_req : Nat) :
    Bool :=
  (workspace_null && decide (0 < workspace_req)) || decide (workspaceSize < workspace_req)

/-- `dataSize = gpu_control.size() * sizeof(uint32_t)` (line 746): the byte
size of the control blob the invoker copies into the workspace. -/
def ultra_control_bytes (blob : List Nat) : Nat := blob.length * 4

/-! ### Counting the raster walk -/

/-- Number of raster tiles consumed before reaching cursor position
`(ow, oh, n)`: tiles are consumed column-major within a row, row within a
plane, plane within the batch. -/
def WU_tile_idx (o_H o_W ow oh n : Nat) : Nat :=
  (n * WU_tiles_H o_H + oh / 2) * WU_tiles_W o_W + ow / 2

/-- Invariant of the walk cursor: the output column/row stay inside the
output extent and stay even (they start at 0 and step by 2). -/
def WU_cursor_inv (o_H o_W : Nat) (ow oh : Nat) : Prop :=
  ow < o_W ∧ oh < o_H ∧ ow % 2 = 0 ∧ oh % 2 = 0

/-! ### Length of the encoded blob -/

/-! ### The interleave step is a permutation -/

/-! ### Bit-level helpers for the encode/decode round trip -/

/-- The value whose binary digits, most significant first, are the given
list (the shift-and-or accumulation order used by the encoder). -/
def ofBitsMSB (l : List Bool) : Nat := l.foldl (fun a b => 2 * a + b.toNat) 0

/-- Field ranges under which a `work_info` encodes losslessly: the mask
lists have the `work_info` struct shape, every 64-bit accumulator is below
`2^64`, and the offsets fit in `int64_t`.  The compiler only produces such
descriptors (proved below). -/
def WU_inRange (w : work_info) : Prop :=
  w.d_clip.length = d_clip_tiles_QW * d_tile_H ∧
  w.o_clip.length = o_clip_tiles_QW * o_tile_H ∧
  (∀ q ∈ w.d_clip, q < 2 ^ 64) ∧ (∀ q ∈ w.o_clip, q < 2 ^ 64) ∧
  w.step_1_pos < 2 ^ 64 ∧ w.step_2_pos < 2 ^ 64 ∧
  -(2 ^ 63 : Int) ≤ w.d_load_offset_addr ∧ w.d_load_offset_addr < 2 ^ 63 ∧
  -(2 ^ 63 : Int) ≤ w.o_store_offset_addr ∧ w.o_store_offset_addr < 2 ^ 63

/-! ### Size bounds on the mask accumulators -/

/-- Size invariant of the `work_info` accumulators after the first `m`
lanes of a descriptor: each flag accumulator has received `m` bits, and
mask entry `e` has received 4 (resp. 2) bits from each of the lanes of its
own block processed so far. -/
def WU_wi_bound (m : Nat) (wi : work_info) : Prop :=
  wi.d_clip.length = 16 ∧ wi.o_clip.length = 4 ∧
  wi.step_1_pos < 2 ^ m ∧ wi.step_2_pos < 2 ^ m ∧
  (∀ e, e < 16 → wi.d_clip.getD e 0 < 2 ^ (4 * min 16 (m - 16 * (e / 4)))) ∧
  (∀ e, e < 4 → wi.o_clip.getD e 0 < 2 ^ (2 * min 32 (m - 32 * (e / 2))))

/-- Valid-region membership of one input-tile element of a lane (the
negation of the clip condition of `WU_d_clip_bit`). -/
def WU_d_elem_valid (N H W : Nat) (c : WU_cursor) (i j : Nat) : Prop :=
  0 ≤ c.d_cur_w + (i : Int) ∧ c.d_cur_w + (i : Int) < (W : Int) ∧
  0 ≤ c.d_cur_h + (j : Int) ∧ c.d_cur_h + (j : Int) < (H : Int) ∧ c.cur_n < N

/-- Valid-region membership of one output-tile element of a lane. -/
def WU_o_elem_valid (N o_H o_W : Nat) (c : WU_cursor) (i j : Nat) : Prop :=
  c.o_cur_w + i < o_W ∧ c.o_cur_h + j < o_H ∧ c.cur_n < N

end WinoUltra

namespace BatchNorm

/-! ### `backward_spatial_single.cpp` -/

inductive BNDirection where
  | forwardTraining
  | forwardInference
  | backward
deriving DecidableEq, Repr

inductive BNMode where
  | spatial
  | perActivation
deriving DecidableEq, Repr

inductive MIDataType where
  | half
  | float
  | other
deriving DecidableEq, Repr

/-- `unsigned int in_cstride = h * w` (32-bit unsigned). -/
def bn_in_cstride (h w : Nat) : Nat := (h * w) % 2 ^ 32

/-- `unsigned int in_nhw = n * in_cstride` (32-bit unsigned). -/
def bn_in_nhw (n h w : Nat) : Nat := (n * bn_in_cstride h w) % 2 ^ 32

/-- `BnBwdTrainingSpatialSingle::IsApplicable` (lines 42-57). -/
def BnBwdTrainingSpatialSingle_IsApplicable (dir : BNDirection) (mode : BNMode)
    (n c h w : Nat) : Bool :=
  if dir ≠ BNDirection.backward ∨ mode ≠ BNMode.spatial then false
  else
    decide ((bn_in_cstride h w > 1024 ∧ bn_in_nhw n h w < 32 * 1024 * 1024) ∨
      (bn_in_cstride h w > 512 ∧ bn_in_nhw n h w < 32 * 1024 * 1024) ∨
      bn_in_cstride h w ≤ 512)

/-- `bfp16parm` (lines 65-80). -/
def bn_bfp16 (xType sbType : MIDataType) : Bool :=
  decide (xType = MIDataType.half ∧ sbType = MIDataType.half)

/-- `bfpmixparm` (lines 65-80): the precision-mixing flag. -/
def bn_bfpmix (xType sbType : MIDataType) : Bool :=
  decide (xType = MIDataType.half ∧ sbType = MIDataType.float)

/-- `bfp32parm`: initialized `true`, cleared in either half-input case. -/
def bn_bfp32 (xType sbType : MIDataType) : Bool :=
  !bn_bfp16 xType sbType && !bn_bfpmix xType sbType

/-- The launch-geometry outputs of `BnBwdTrainingSpatialSingle::GetSolution`
covered by the spec's decision table. -/
structure BNSelection where
  variant : Nat
  xlocalsize : Nat
  ylocalsize : Nat
  xgridsize : Nat
  ygridsize : Nat
deriving DecidableEq, Repr

/-- The variant / launch-size decision table of `GetSolution`
(lines 98-179), including the final precision-mixing override which only
reassigns `variant`, `xlocalsize` and `xgridsize`.  The variant-2 segment
count `ceil(in_cstride / 1024.0)` is exact in `Nat` for all 32-bit values. -/
def bn_GetSolution_select (xType sbType : MIDataType) (n c h w : Nat) : BNSelection :=
  let bfpmixparm := bn_bfpmix xType sbType
  let bfp32parm := bn_bfp32 xType sbType
  let in_cstride := bn_in_cstride h w
  let in_nhw := bn_in_nhw n h w
  let base : BNSelection :=
    if in_nhw < 32 * 1024 * 1024 ∧ in_cstride > 1024 then
      { variant := 1, xlocalsize := 1024, ylocalsize := 1,
        xgridsize := c * 1024, ygridsize := 1 }
    else if in_nhw < 32 * 1024 * 1024 ∧ in_cstride > 512 then
      let xl := min (64 * ((in_cstride + 63) / 64)) 1024
      { variant := if 32 ≤ n then 1 else 3, xlocalsize := xl, ylocalsize := 1,
        xgridsize := c * xl, ygridsize := 1 }
    else if in_cstride ≤ 512 then
      if 64 < n ∧ 160 < in_cstride then
        let xl := min (64 * ((in_cstride + 63) / 64)) 1024
        { variant := 3, xlocalsize := xl, ylocalsize := 1,
          xgridsize := c * xl, ygridsize := 1 }
      else if bfp32parm then
        { variant := 0, xlocalsize := 1024, ylocalsize := 1,
          xgridsize := 1024 * c, ygridsize := 1 }
      else
        { variant := 0, xlocalsize := 256, ylocalsize := 1,
          xgridsize := 256 * c, ygridsize := 1 }
    else
      let segment := (in_cstride + 1024 - 1) / 1024
      { variant := 2, xlocalsize := 1, ylocalsize := 1024,
        xgridsize := c, ygridsize := segment * 1024 }
  if in_cstride < 200 ∧ 60 < in_cstride ∧ bfpmixparm then
    { variant := 1, xlocalsize := 1024, ylocalsize := base.ylocalsize,
      xgridsize := c * 1024, ygridsize := base.ygridsize }
  else base

end BatchNorm

namespace WinoUltra

theorem WU_lane_advance_idx (o_H o_W pad_H pad_W : Nat) (c : WU_cursor)
    (h : WU_cursor_inv o_H o_W c.o_cur_w c.o_cur_h) :
    WU_cursor_inv o_H o_W (WU_lane_advance o_H o_W pad_H pad_W c).1.o_cur_w
      (WU_lane_advance o_H o_W pad_H pad_W c).1.o_cur_h ∧
    WU_tile_idx o_H o_W (WU_lane_advance o_H o_W pad_H pad_W c).1.o_cur_w
      (WU_lane_advance o_H o_W pad_H pad_W c).1.o_cur_h
      (WU_lane_advance o_H o_W pad_H pad_W c).1.cur_n =
      WU_tile_idx o_H o_W c.o_cur_w c.o_cur_h c.cur_n + 1 := by
  obtain ⟨hw, hh, hew, heh⟩ := h
  have hRW : 2 * WU_tiles_W o_W = o_W + o_W % 2 := by
    unfold WU_tiles_W o_tile_step_W o_tile_W; omega
  have hRH : 2 * WU_tiles_H o_H = o_H + o_H % 2 := by
    unfold WU_tiles_H o_tile_step_H o_tile_H; omega
  simp only [WU_lane_advance, WU_cursor_inv, WU_tile_idx,
    o_tile_step_W, o_tile_step_H, o_tile_W, o_tile_H]
  split
  · -- row wrap
    rename_i hwrapw
    have ha : c.o_cur_w / 2 + 1 = WU_tiles_W o_W := by omega
    split
    · -- plane wrap
      rename_i hwraph
      have hb : c.o_cur_h / 2 + 1 = WU_tiles_H o_H := by omega
      dsimp only
      obtain ⟨rw, hrw⟩ : ∃ rw, WU_tiles_W o_W = rw + 1 := ⟨_, ha.symm⟩
      obtain ⟨rh, hrh⟩ : ∃ rh, WU_tiles_H o_H = rh + 1 := ⟨_, hb.symm⟩
      have ha2 : c.o_cur_w / 2 = rw := by omega
      have hb2 : c.o_cur_h / 2 = rh := by omega
      refine ⟨⟨by omega, by omega, by omega, by omega⟩, ?_⟩
      rw [hrw, hrh, ha2, hb2]
      simp only [Nat.zero_div, Nat.add_zero]
      ring
    · -- row wrap only
      rename_i hwraph
      dsimp only
      obtain ⟨rw, hrw⟩ : ∃ rw, WU_tiles_W o_W = rw + 1 := ⟨_, ha.symm⟩
      have ha2 : c.o_cur_w / 2 = rw := by omega
      refine ⟨⟨by omega, by omega, by omega, by omega⟩, ?_⟩
      rw [hrw, ha2]
      have hb2 : (c.o_cur_h + 2) / 2 = c.o_cur_h / 2 + 1 := by omega
      rw [hb2]
      simp only [Nat.zero_div, Nat.add_zero]
      ring
  · -- no row wrap
    rename_i hnowrapw
    split
    · -- the (unreachable under the invariant) plane-wrap-without-row-wrap case
      rename_i hwraph
      omega
    · dsimp only
      refine ⟨⟨by omega, by omega, by omega, by omega⟩, ?_⟩
      have ha2 : (c.o_cur_w + 2) / 2 = c.o_cur_w / 2 + 1 := by omega
      rw [ha2]
      omega

/-- The cursor component of one lane iteration is the plain cursor advance. -/
theorem WU_lane_snd (N H W o_H o_W pad_H pad_W : Nat) (acc : work_info × WU_cursor)
    (n_tile : Nat) :
    (WU_lane N H W o_H o_W pad_H pad_W acc n_tile).2 =
      (WU_lane_advance o_H o_W pad_H pad_W acc.2).1 := rfl

theorem WU_lanes_fold_idx (N H W o_H o_W pad_H pad_W : Nat) (L : List Nat) :
    ∀ (p : work_info × WU_cursor),
      WU_cursor_inv o_H o_W p.2.o_cur_w p.2.o_cur_h →
      WU_cursor_inv o_H o_W
          ((L.foldl (WU_lane N H W o_H o_W pad_H pad_W) p).2).o_cur_w
          ((L.foldl (WU_lane N H W o_H o_W pad_H pad_W) p).2).o_cur_h ∧
      WU_tile_idx o_H o_W
          ((L.foldl (WU_lane N H W o_H o_W pad_H pad_W) p).2).o_cur_w
          ((L.foldl (WU_lane N H W o_H o_W pad_H pad_W) p).2).o_cur_h
          ((L.foldl (WU_lane N H W o_H o_W pad_H pad_W) p).2).cur_n =
        WU_tile_idx o_H o_W p.2.o_cur_w p.2.o_cur_h p.2.cur_n + L.length := by
  induction L with
  | nil => exact fun p h => ⟨h, rfl⟩
  | cons t L ih =>
    intro p h
    have hstep := WU_lane_advance_idx o_H o_W pad_H pad_W p.2 h
    simp only [List.foldl_cons]
    have h2 := ih (WU_lane N H W o_H o_W pad_H pad_W p t)
    rw [WU_lane_snd] at h2
    have h3 := h2 hstep.1
    refine ⟨h3.1, ?_⟩
    rw [h3.2, hstep.2, List.length_cons]
    omega

theorem WU_descriptor_idx (N H W o_H o_W pad_H pad_W dsN dsH dsW osN osH osW : Nat)
    (s : WU_state) (h : WU_cursor_inv o_H o_W s.o_cur_w s.o_cur_h) :
    WU_cursor_inv o_H o_W
        (WU_descriptor N H W o_H o_W pad_H pad_W dsN dsH dsW osN osH osW s).2.o_cur_w
        (WU_descriptor N H W o_H o_W pad_H pad_W dsN dsH dsW osN osH osW s).2.o_cur_h ∧
    WU_tile_idx o_H o_W
        (WU_descriptor N H W o_H o_W pad_H pad_W dsN dsH dsW osN osH osW s).2.o_cur_w
        (WU_descriptor N H W o_H o_W pad_H pad_W dsN dsH dsW osN osH osW s).2.o_cur_h
        (WU_descriptor N H W o_H o_W pad_H pad_W dsN dsH dsW osN osH osW s).2.cur_n =
      WU_tile_idx o_H o_W s.o_cur_w s.o_cur_h s.cur_n + 64 := by
  unfold WU_descriptor
  dsimp only
  have h2 := WU_lanes_fold_idx N H W o_H o_W pad_H pad_W (List.range group_size)
    ({ d_load_offset_addr :=
          ((s.o_cur_w : Int) - (pad_W : Int)) * (dsW : Int) +
            ((s.o_cur_h : Int) - (pad_H : Int)) * (dsH : Int) + (s.cur_n : Int) * (dsN : Int)
       o_store_offset_addr :=
          (s.o_cur_w : Int) * (osW : Int) + (s.o_cur_h : Int) * (osH : Int) +
            (s.cur_n : Int) * (osN : Int)
       step_1_pos := 0
       step_2_pos := 0
       d_clip := List.replicate (d_clip_tiles_QW * d_tile_H) 0
       o_clip := List.replicate (o_clip_tiles_QW * o_tile_H) 0 },
     ⟨s.o_cur_w, s.o_cur_h, (s.o_cur_w : Int) - (pad_W : Int),
       (s.o_cur_h : Int) - (pad_H : Int), s.cur_n⟩) h
  rw [List.length_range] at h2
  have hg : group_size = 64 := rfl
  rw [hg] at h2
  exact h2

theorem WU_guard_iff_idx (N o_H o_W : Nat) (s : WU_state)
    (h : WU_cursor_inv o_H o_W s.o_cur_w s.o_cur_h) :
    (s.o_cur_w < o_W ∧ s.o_cur_h < o_H ∧ s.cur_n < N) ↔
      WU_tile_idx o_H o_W s.o_cur_w s.o_cur_h s.cur_n < WU_total_tiles N o_H o_W := by
  obtain ⟨hw, hh, hew, heh⟩ := h
  have hRW : 2 * WU_tiles_W o_W = o_W + o_W % 2 := by
    unfold WU_tiles_W o_tile_step_W o_tile_W; omega
  have hRH : 2 * WU_tiles_H o_H = o_H + o_H % 2 := by
    unfold WU_tiles_H o_tile_step_H o_tile_H; omega
  have ha : s.o_cur_w / 2 < WU_tiles_W o_W := by omega
  have hb : s.o_cur_h / 2 < WU_tiles_H o_H := by omega
  unfold WU_tile_idx WU_total_tiles
  constructor
  · rintro ⟨-, -, hn⟩
    calc (s.cur_n * WU_tiles_H o_H + s.o_cur_h / 2) * WU_tiles_W o_W + s.o_cur_w / 2
        < (s.cur_n * WU_tiles_H o_H + s.o_cur_h / 2) * WU_tiles_W o_W + WU_tiles_W o_W := by
          omega
      _ = (s.cur_n * WU_tiles_H o_H + s.o_cur_h / 2 + 1) * WU_tiles_W o_W := by ring
      _ ≤ (s.cur_n * WU_tiles_H o_H + WU_tiles_H o_H) * WU_tiles_W o_W :=
          Nat.mul_le_mul_right _ (by omega)
      _ = (s.cur_n + 1) * WU_tiles_H o_H * WU_tiles_W o_W := by ring
      _ ≤ N * WU_tiles_H o_H * WU_tiles_W o_W :=
          Nat.mul_le_mul_right _ (Nat.mul_le_mul_right _ (by omega))
  · intro hidx
    refine ⟨hw, hh, ?_⟩
    by_contra hn
    push_neg at hn
    have h1 : N * WU_tiles_H o_H * WU_tiles_W o_W ≤
        s.cur_n * WU_tiles_H o_H * WU_tiles_W o_W :=
      Nat.mul_le_mul_right _ (Nat.mul_le_mul_right _ hn)
    have h2 : s.cur_n * WU_tiles_H o_H * WU_tiles_W o_W ≤
        (s.cur_n * WU_tiles_H o_H + s.o_cur_h / 2) * WU_tiles_W o_W :=
      Nat.mul_le_mul_right _ (Nat.le_add_right _ _)
    omega

theorem WU_walk_go_length (N H W o_H o_W pad_H pad_W dsN dsH dsW osN osH osW : Nat) :
    ∀ (fuel : Nat) (s : WU_state), WU_cursor_inv o_H o_W s.o_cur_w s.o_cur_h →
      (WU_total_tiles N o_H o_W - WU_tile_idx o_H o_W s.o_cur_w s.o_cur_h s.cur_n + 63) / 64 ≤
        fuel →
      (WU_walk_go N H W o_H o_W pad_H pad_W dsN dsH dsW osN osH osW fuel s).length =
        (WU_total_tiles N o_H o_W - WU_tile_idx o_H o_W s.o_cur_w s.o_cur_h s.cur_n + 63) / 64
  | 0, s, hinv, hfuel => by
    simp only [WU_walk_go, List.length_nil]
    omega
  | fuel + 1, s, hinv, hfuel => by
    rw [WU_walk_go]
    split
    · rename_i hguard
      have hidx := (WU_guard_iff_idx N o_H o_W s hinv).1 hguard
      have hd := WU_descriptor_idx N H W o_H o_W pad_H pad_W dsN dsH dsW osN osH osW s hinv
      rw [List.length_cons,
        WU_walk_go_length N H W o_H o_W pad_H pad_W dsN dsH dsW osN osH osW fuel _ hd.1
          (by rw [hd.2]; omega),
        hd.2]
      omega
    · rename_i hguard
      have h2 : ¬ WU_tile_idx o_H o_W s.o_cur_w s.o_cur_h s.cur_n <
          WU_total_tiles N o_H o_W :=
        fun hlt => hguard ((WU_guard_iff_idx N o_H o_W s hinv).2 hlt)
      simp only [List.length_nil]
      omega

/-- Helper: the number of compiled descriptors is the number of raster
tiles divided by the 64-lane group size, rounded up. -/
theorem WU_w_info_length (N H W o_H o_W pad_H pad_W dsN dsH dsW osN osH osW : Nat)
    (hH : 0 < o_H) (hW : 0 < o_W) :
    (WU_control_make_3x3_w_info N H W o_H o_W pad_H pad_W dsN dsH dsW osN osH osW).length =
      (WU_total_tiles N o_H o_W + 63) / 64 := by
  unfold WU_control_make_3x3_w_info
  have h0 : WU_cursor_inv o_H o_W (WU_state.mk 0 0 0).o_cur_w (WU_state.mk 0 0 0).o_cur_h :=
    ⟨hW, hH, rfl, rfl⟩
  have hidx0 : WU_tile_idx o_H o_W (WU_state.mk 0 0 0).o_cur_w (WU_state.mk 0 0 0).o_cur_h
      (WU_state.mk 0 0 0).cur_n = 0 := by
    simp [WU_tile_idx]
  have := WU_walk_go_length N H W o_H o_W pad_H pad_W dsN dsH dsW osN osH osW
    (WU_total_tiles N o_H o_W + 1) ⟨0, 0, 0⟩ h0 (by rw [hidx0]; omega)
  rw [hidx0] at this
  rw [this]
  omega

theorem WU_scatter_step_length (blk : List Nat) (q : Nat) (rev : Bool) :
    (WU_scatter_step blk q rev).length = 64 := by
  simp [WU_scatter_step]

theorem WU_encode_block_length (qs : List (Nat × Bool)) : (WU_encode_block qs).length = 64 := by
  unfold WU_encode_block
  have h : ∀ (qs : List (Nat × Bool)) (blk : List Nat), blk.length = 64 →
      (qs.foldl (fun blk p => WU_scatter_step blk p.1 p.2) blk).length = 64 := by
    intro qs
    induction qs with
    | nil => exact fun blk h => h
    | cons p qs ih =>
      intro blk hb
      simp only [List.foldl_cons]
      exact ih _ (WU_scatter_step_length _ _ _)
  exact h _ _ (by simp)

theorem WU_encode_record_length (w : work_info) (i : Nat) :
    (WU_encode_record w i).length = 64 :=
  WU_encode_block_length _

theorem WU_encode_from_length (ws : List work_info) :
    ∀ i, (WU_encode_from i ws).length = 64 * ws.length := by
  induction ws with
  | nil => intro i; simp [WU_encode_from]
  | cons w ws ih =>
    intro i
    simp only [WU_encode_from, List.length_append, WU_encode_record_length, ih, List.length_cons]
    ring

theorem range_filterMap_get {α : Type} (l : List α) :
    (List.range l.length).filterMap (fun j => l[j]?) = l := by
  induction l with
  | nil => simp
  | cons a l ih =>
    rw [List.length_cons, List.range_succ_eq_map, List.filterMap_cons, List.filterMap_map]
    simp only [List.getElem?_cons_zero, Function.comp_def, List.getElem?_cons_succ]
    rw [ih]

theorem count_flatMap_sum {α β : Type} [DecidableEq β] (L : List α) (f : α → List β) (b : β) :
    (L.flatMap f).count b = (L.map (fun a => (f a).count b)).sum := by
  induction L with
  | nil => simp
  | cons a L ih => simp [List.flatMap_cons, List.count_append, ih]

theorem sum_map_ite_eq (L : List Nat) (j v : Nat) (hnd : L.Nodup) :
    (L.map (fun k => if k = j then v else 0)).sum = if j ∈ L then v else 0 := by
  induction L with
  | nil => simp
  | cons a L ih =>
    rw [List.map_cons, List.sum_cons, ih hnd.of_cons]
    rcases Decidable.em (a = j) with h | h
    · subst h
      have : a ∉ L := (List.nodup_cons.1 hnd).1
      simp [this]
    · have hja : ¬ j = a := fun hj => h hj.symm
      simp [h, hja, List.mem_cons]

/-- The block-local index lists chosen by the two inner interleave loops
form a permutation of all block-local indices. -/
theorem interleave_idx_perm (n intl : Nat) (hintl : 1 ≤ intl) :
    ((List.range intl).flatMap (fun k =>
      (List.range n).filter (fun j => decide (j % intl = k)))).Perm (List.range n) := by
  rw [List.perm_iff_count]
  intro j
  rw [count_flatMap_sum]
  have hcount : ∀ k, ((List.range n).filter (fun j => decide (j % intl = k))).count j =
      if j % intl = k ∧ j < n then 1 else 0 := by
    intro k
    rcases Decidable.em (j % intl = k) with h | h
    · rw [List.count_filter (by simp [h])]
      rcases Decidable.em (j < n) with h2 | h2
      · rw [List.count_eq_one_of_mem (List.nodup_range _) (List.mem_range.2 h2)]
        simp [h, h2]
      · rw [List.count_eq_zero_of_not_mem (fun hm => h2 (List.mem_range.1 hm))]
        simp [h2]
    · rw [List.count_eq_zero_of_not_mem, if_neg (fun hc => h hc.1)]
      intro hm
      exact h (by simpa using (List.mem_filter.1 hm).2)
  calc ((List.range intl).map
        (fun k => ((List.range n).filter (fun j => decide (j % intl = k))).count j)).sum
      = ((List.range intl).map
        (fun k => if k = j % intl then (if j < n then 1 else 0) else 0)).sum := by
        refine congrArg List.sum (List.map_congr_left ?_)
        intro k hk
        rw [hcount k]
        rcases Decidable.em (k = j % intl) with h | h
        · subst h
          simp
        · rw [if_neg (fun hc : j % intl = k ∧ j < n => h hc.1.symm), if_neg h]
    _ = if j % intl ∈ List.range intl then (if j < n then 1 else 0) else 0 :=
        sum_map_ite_eq _ _ _ (List.nodup_range _)
    _ = (List.range n).count j := by
        have hmem : j % intl ∈ List.range intl :=
          List.mem_range.2 (Nat.mod_lt _ (by omega))
        rcases Decidable.em (j < n) with h2 | h2
        · rw [if_pos hmem, if_pos h2,
            List.count_eq_one_of_mem (List.nodup_range _) (List.mem_range.2 h2)]
        · rw [if_pos hmem, if_neg h2,
            List.count_eq_zero_of_not_mem (fun hm => h2 (List.mem_range.1 hm))]

theorem WU_interleave_block_perm {α : Type} (blk : List α) (intl : Nat) (h : 1 ≤ intl) :
    (WU_interleave_block blk intl).Perm blk := by
  unfold WU_interleave_block
  rw [← List.filterMap_flatMap]
  have h3 := (interleave_idx_perm blk.length intl h).filterMap (fun j => blk[j]?)
  rwa [range_filterMap_get] at h3

theorem WU_interleave_block_one {α : Type} (blk : List α) :
    WU_interleave_block blk 1 = blk := by
  unfold WU_interleave_block
  have h1 : List.range 1 = [0] := rfl
  rw [h1, List.flatMap_cons, List.flatMap_nil, List.append_nil]
  have h2 : ∀ j, (fun j => decide (j % 1 = 0)) j = true := by simp [Nat.mod_one]
  rw [List.filter_eq_self.2 (fun a _ => h2 a), range_filterMap_get]

theorem chunks_flatMap_eq {α : Type} (B : Nat) (hB : 1 ≤ B) :
    ∀ (n : Nat) (l : List α), l.length ≤ B * n →
      (List.range n).flatMap (fun b => (l.drop (B * b)).take B) = l := by
  intro n
  induction n with
  | zero =>
    intro l h
    have hnil : l = [] := List.eq_nil_of_length_eq_zero (by omega)
    simp [hnil]
  | succ n ih =>
    intro l h
    rw [List.range_succ_eq_map, List.flatMap_cons, List.flatMap_map]
    have hstep : (fun b => (l.drop (B * Nat.succ b)).take B) =
        (fun b => ((l.drop B).drop (B * b)).take B) := by
      funext b
      rw [List.drop_drop]
      have hm : B * Nat.succ b = B + B * b := by rw [Nat.mul_succ]; omega
      rw [hm]
    rw [hstep]
    have h2 : (List.range n).flatMap (fun b => ((l.drop B).drop (B * b)).take B) = l.drop B := by
      refine ih (l.drop B) ?_
      rw [List.length_drop]
      have hm : B * (n + 1) = B * n + B := by ring
      omega
    rw [h2]
    have h0 : B * 0 = 0 := by ring
    rw [h0, List.drop_zero, List.take_append_drop]

theorem chunks_interleave_perm {α : Type} (B intl : Nat) (hB : 1 ≤ B) (hintl : 1 ≤ intl) :
    ∀ (n : Nat) (l : List α), l.length ≤ B * n →
      ((List.range n).flatMap
        (fun b => WU_interleave_block ((l.drop (B * b)).take B) intl)).Perm l := by
  intro n
  induction n with
  | zero =>
    intro l h
    have : l = [] := List.eq_nil_of_length_eq_zero (by omega)
    simp [this]
  | succ n ih =>
    intro l h
    rw [List.range_succ_eq_map, List.flatMap_cons, List.flatMap_map]
    have hstep : (fun b => WU_interleave_block ((l.drop (B * Nat.succ b)).take B) intl) =
        (fun b => WU_interleave_block (((l.drop B).drop (B * b)).take B) intl) := by
      funext b
      rw [List.drop_drop]
      have hm : B * Nat.succ b = B + B * b := by rw [Nat.mul_succ]; omega
      rw [hm]
    rw [hstep]
    have h1 : (WU_interleave_block ((l.drop (B * 0)).take B) intl).Perm (l.take B) := by
      have : B * 0 = 0 := by ring
      rw [this, List.drop_zero]
      exact WU_interleave_block_perm _ _ hintl
    have h2 : (((List.range n).flatMap
        (fun b => WU_interleave_block (((l.drop B).drop (B * b)).take B) intl))).Perm (l.drop B) := by
      refine ih (l.drop B) ?_
      rw [List.length_drop]
      have hm : B * (n + 1) = B * n + B := by ring
      omega
    have h3 := List.Perm.append h1 h2
    rw [List.take_append_drop] at h3
    exact h3

/-- Helper: the interleave step is a permutation of its input whenever both
factors are at least 1. -/
theorem WU_interleave_perm {α : Type} (l : List α) (intl g : Nat)
    (hi : 1 ≤ intl) (hg : 1 ≤ g) :
    (WU_interleave l intl g).Perm l := by
  simp only [WU_interleave]
  have hB : 1 ≤ intl * g := Nat.mul_pos hi hg
  apply chunks_interleave_perm _ _ hB hi
  have hd := Nat.div_add_mod (l.length + intl * g - 1) (intl * g)
  have hm := Nat.mod_lt (l.length + intl * g - 1) (show 0 < intl * g by omega)
  omega

/-- Helper: `interleave_factor = 1` leaves the sequence unchanged. -/
theorem WU_interleave_one_eq {α : Type} (l : List α) (g : Nat) (hg : 1 ≤ g) :
    WU_interleave l 1 g = l := by
  simp only [WU_interleave, WU_interleave_block_one]
  have hB : 1 ≤ 1 * g := by omega
  have hlen : l.length ≤ 1 * g * ((l.length + 1 * g - 1) / (1 * g)) := by
    have hd := Nat.div_add_mod (l.length + 1 * g - 1) (1 * g)
    have hm := Nat.mod_lt (l.length + 1 * g - 1) (show 0 < 1 * g by omega)
    omega
  exact chunks_flatMap_eq (1 * g) hB _ l hlen

theorem getD_append_left {α : Type} (l1 l2 : List α) (n : Nat) (d : α) (h : n < l1.length) :
    (l1 ++ l2).getD n d = l1.getD n d := by
  simp [List.getD_eq_getElem?_getD, List.getElem?_append_left h]

theorem getD_append_self {α : Type} (l1 : List α) (b : α) (d : α) :
    (l1 ++ [b]).getD l1.length d = b := by
  simp [List.getD_eq_getElem?_getD, List.getElem?_append_right (Nat.le_refl _)]

theorem ofBitsMSB_append (l : List Bool) (b : Bool) :
    ofBitsMSB (l ++ [b]) = 2 * ofBitsMSB l + b.toNat := by
  unfold ofBitsMSB
  rw [List.foldl_append]
  rfl

theorem ofBitsMSB_lt (l : List Bool) : ofBitsMSB l < 2 ^ l.length := by
  induction l using List.reverseRecOn with
  | nil => decide
  | append_singleton l b ih =>
    rw [ofBitsMSB_append, List.length_append]
    have h2 : 2 ^ (l.length + [b].length) = 2 * 2 ^ l.length := by
      simp [List.length_cons, Nat.pow_succ]
      ring
    have hb := Bool.toNat_lt b
    omega

theorem testBit_ofBitsMSB (l : List Bool) :
    ∀ i, (ofBitsMSB l).testBit i =
      if i < l.length then l.getD (l.length - 1 - i) false else false := by
  induction l using List.reverseRecOn with
  | nil =>
    intro i
    simp [ofBitsMSB, Nat.zero_testBit]
  | append_singleton l b ih =>
    intro i
    rw [ofBitsMSB_append]
    have hb := Bool.toNat_lt b
    rcases i with _ | i
    · rw [Nat.testBit_zero]
      have h2 : (2 * ofBitsMSB l + b.toNat) % 2 = b.toNat := by omega
      rw [h2, List.length_append]
      have hpos : 0 < l.length + [b].length := by simp
      rw [if_pos hpos]
      have hidx : l.length + [b].length - 1 - 0 = l.length := by simp
      rw [hidx, getD_append_self]
      rcases b with _ | _ <;> decide
    · have hdiv : (2 * ofBitsMSB l + b.toNat) / 2 = ofBitsMSB l := by omega
      rw [Nat.testBit_succ, hdiv, ih i, List.length_append]
      rcases Decidable.em (i < l.length) with h | h
      · rw [if_pos h, if_pos (by simp; omega)]
        have hidx : l.length + [b].length - 1 - (i + 1) = l.length - 1 - i := by
          simp
          omega
        rw [hidx, getD_append_left]
        omega
      · rw [if_neg h, if_neg (by simp; omega)]

/-- `qword_of_bits` depends only on the first `n` bit values. -/
theorem qword_of_bits_congr (f g : Nat → Bool) :
    ∀ n, (∀ k, k < n → f k = g k) → qword_of_bits f n = qword_of_bits g n := by
  intro n
  induction n with
  | zero => intro h; rfl
  | succ n ih =>
    intro h
    simp only [qword_of_bits]
    rw [ih (fun k hk => h k (by omega)), h n (by omega)]

theorem toNat_testBit_eq (q n : Nat) : (q.testBit n).toNat = q / 2 ^ n % 2 := by
  rw [Nat.testBit_to_div_mod]
  rcases Nat.mod_two_eq_zero_or_one (q / 2 ^ n) with h | h <;> simp [h]

theorem qword_of_bits_testBit (q : Nat) :
    ∀ n, qword_of_bits (fun k => q.testBit k) n = q % 2 ^ n := by
  intro n
  induction n with
  | zero => simp [qword_of_bits, Nat.mod_one]
  | succ n ih =>
    simp only [qword_of_bits]
    rw [ih, toNat_testBit_eq]
    have h2 : q % 2 ^ (n + 1) = q % 2 ^ n + 2 ^ n * (q / 2 ^ n % 2) := by
      rw [Nat.pow_succ]
      exact Nat.mod_mul
    rw [h2]
    ring

theorem int64_roundtrip (x : Int) (h1 : -(2 ^ 63) ≤ x) (h2 : x < 2 ^ 63) :
    int64_of_uint64 (uint64_of_int x) = x := by
  unfold int64_of_uint64 uint64_of_int
  split <;> omega

theorem WU_scatter_step_getD (blk : List Nat) (q : Nat) (rev : Bool) (m : Nat) (hm : m < 64) :
    (WU_scatter_step blk q rev).getD m 0 =
      2 * blk.getD m 0 + (q.testBit (if rev then 63 - m else m)).toNat := by
  unfold WU_scatter_step
  rw [List.getD_eq_getElem?_getD, List.getElem?_map, List.getElem?_range hm]
  rfl

theorem WU_encode_fold_getD (qs : List (Nat × Bool)) :
    ∀ (blk : List Nat), blk.length = 64 → ∀ m, m < 64 →
      (qs.foldl (fun b p => WU_scatter_step b p.1 p.2) blk).getD m 0 =
        qs.foldl (fun a p => 2 * a + (p.1.testBit (if p.2 then 63 - m else m)).toNat)
          (blk.getD m 0) := by
  induction qs with
  | nil => intro blk h m hm; rfl
  | cons p qs ih =>
    intro blk h m hm
    simp only [List.foldl_cons]
    rw [ih (WU_scatter_step blk p.1 p.2) (WU_scatter_step_length _ _ _) m hm,
      WU_scatter_step_getD blk p.1 p.2 m hm]

theorem WU_encode_block_getD (qs : List (Nat × Bool)) (m : Nat) (hm : m < 64) :
    (WU_encode_block qs).getD m 0 =
      ofBitsMSB (qs.map (fun p => p.1.testBit (if p.2 then 63 - m else m))) := by
  unfold WU_encode_block ofBitsMSB
  rw [WU_encode_fold_getD qs (List.replicate 64 0) (by simp) m hm, List.foldl_map]
  have h0 : (List.replicate 64 (0 : Nat)).getD m 0 = 0 := by
    rw [List.getD_eq_getElem?_getD, List.getElem?_replicate]
    split <;> rfl
  rw [h0]

theorem getD_map_lt {α β : Type} (f : α → β) (l : List α) (j : Nat) (d1 : β) (d2 : α)
    (hj : j < l.length) : (l.map f).getD j d1 = f (l.getD j d2) := by
  rw [List.getD_eq_getElem?_getD, List.getD_eq_getElem?_getD, List.getElem?_map,
    List.getElem?_eq_getElem hj]
  rfl

theorem WU_decode_encode_qword (qs : List (Nat × Bool)) (hlen : qs.length = 32)
    (hq : ∀ p ∈ qs, p.1 < 2 ^ 64) (j : Nat) (hj : j < 32) :
    WU_decode_qword (WU_encode_block qs) j (qs.getD j (0, false)).2 =
      (qs.getD j (0, false)).1 := by
  have hmem : qs.getD j (0, false) ∈ qs := by
    rw [List.getD_eq_getElem?_getD, List.getElem?_eq_getElem (by omega)]
    exact List.getElem_mem _
  have hqv : (qs.getD j (0, false)).1 < 2 ^ 64 := hq _ hmem
  have hcong : ∀ k, k < 64 →
      ((WU_encode_block qs).getD (if (qs.getD j (0, false)).2 then 63 - k else k) 0).testBit
          (31 - j) =
        (qs.getD j (0, false)).1.testBit k := by
    intro k hk
    have hpos : (if (qs.getD j (0, false)).2 then 63 - k else k) < 64 := by
      split <;> omega
    rw [WU_encode_block_getD qs _ hpos, testBit_ofBitsMSB, List.length_map, hlen,
      if_pos (by omega)]
    have hidx : 32 - 1 - (31 - j) = j := by omega
    rw [hidx, getD_map_lt _ qs j false (0, false) (by omega)]
    cases hb : (qs.getD j (0, false)).2 with
    | false => simp [hb]
    | true =>
      simp only [hb, if_true]
      congr 1
      omega
  unfold WU_decode_qword
  rw [qword_of_bits_congr _ (fun k => (qs.getD j (0, false)).1.testBit k) 64 hcong,
    qword_of_bits_testBit, Nat.mod_eq_of_lt hqv]

theorem uint64_of_int_lt (x : Int) : uint64_of_int x < 2 ^ 64 := by
  unfold uint64_of_int
  omega

theorem WU_encode_qwords_length (w : work_info) (idx : Nat) :
    (WU_encode_qwords w idx).length = 32 := by
  simp [WU_encode_qwords]

theorem getD_mem {α : Type} (l : List α) (n : Nat) (d : α) (h : n < l.length) :
    l.getD n d ∈ l := by
  rw [List.getD_eq_getElem?_getD, List.getElem?_eq_getElem h]
  exact List.getElem_mem h

theorem WU_encode_qwords_getD (w : work_info) (idx j : Nat) (hj : j < 32) :
    (WU_encode_qwords w idx).getD j (0, false) =
      (if j = 0 then (uint64_of_int w.d_load_offset_addr, false)
       else if j = 1 then (uint64_of_int w.o_store_offset_addr, false)
       else if j = 2 then (w.step_1_pos, true)
       else if j = 3 then (w.step_2_pos, true)
       else if 4 ≤ j ∧ j < 4 + d_clip_tiles_QW * d_tile_H then
         (w.d_clip.getD (j - 4) 0, true)
       else if 4 + d_clip_tiles_QW * d_tile_H ≤ j ∧
           j < 4 + d_clip_tiles_QW * d_tile_H + o_clip_tiles_QW * o_tile_H then
         (w.o_clip.getD (j - 4 - d_clip_tiles_QW * d_tile_H) 0, true)
       else if j = 24 then (idx, false)
       else (0, false)) := by
  unfold WU_encode_qwords
  rw [getD_map_lt _ _ j (0, false) 0 (by simp; omega)]
  have hget : (List.range 32).getD j 0 = j := by
    rw [List.getD_eq_getElem?_getD, List.getElem?_range (by omega)]
    rfl
  rw [hget]

theorem WU_encode_qwords_bounded (w : work_info) (idx : Nat) (h : WU_inRange w)
    (hidx : idx < 2 ^ 64) :
    ∀ p ∈ WU_encode_qwords w idx, p.1 < 2 ^ 64 := by
  intro p hp
  unfold WU_encode_qwords at hp
  rw [List.mem_map] at hp
  obtain ⟨j, hjmem, rfl⟩ := hp
  have hc16 : d_clip_tiles_QW * d_tile_H = 16 := rfl
  split_ifs
  · exact uint64_of_int_lt _
  · exact uint64_of_int_lt _
  · exact h.2.2.2.2.1
  · exact h.2.2.2.2.2.1
  · rename_i h1 h2 h3 h4 h5
    exact h.2.2.1 _ (getD_mem _ _ _ (by rw [h.1]; omega))
  · rename_i h1 h2 h3 h4 h5 h6
    exact h.2.2.2.1 _ (getD_mem _ _ _ (by rw [h.2.1, hc16] at *; omega))
  · exact hidx
  · decide

theorem WU_record_decode (w : work_info) (idx : Nat) (h : WU_inRange w)
    (hidx : idx < 2 ^ 64) :
    WU_decode_d_offset (WU_encode_record w idx) = w.d_load_offset_addr ∧
    WU_decode_o_offset (WU_encode_record w idx) = w.o_store_offset_addr ∧
    WU_decode_step_1 (WU_encode_record w idx) = w.step_1_pos ∧
    WU_decode_step_2 (WU_encode_record w idx) = w.step_2_pos ∧
    WU_decode_d_clip (WU_encode_record w idx) = w.d_clip ∧
    WU_decode_o_clip (WU_encode_record w idx) = w.o_clip ∧
    WU_decode_index (WU_encode_record w idx) = idx := by
  have hlen := WU_encode_qwords_length w idx
  have hbnd := WU_encode_qwords_bounded w idx h hidx
  have hc16 : d_clip_tiles_QW * d_tile_H = 16 := rfl
  have hc4 : o_clip_tiles_QW * o_tile_H = 4 := rfl
  refine ⟨?_, ?_, ?_, ?_, ?_, ?_, ?_⟩
  · have h0 := WU_decode_encode_qword (WU_encode_qwords w idx) hlen hbnd 0 (by omega)
    have hq0 : (WU_encode_qwords w idx).getD 0 (0, false) =
        (uint64_of_int w.d_load_offset_addr, false) := rfl
    rw [hq0] at h0
    unfold WU_decode_d_offset WU_encode_record
    rw [h0]
    exact int64_roundtrip _ h.2.2.2.2.2.2.1 h.2.2.2.2.2.2.2.1
  · have h0 := WU_decode_encode_qword (WU_encode_qwords w idx) hlen hbnd 1 (by omega)
    have hq0 : (WU_encode_qwords w idx).getD 1 (0, false) =
        (uint64_of_int w.o_store_offset_addr, false) := rfl
    rw [hq0] at h0
    unfold WU_decode_o_offset WU_encode_record
    rw [h0]
    exact int64_roundtrip _ h.2.2.2.2.2.2.2.2.1 h.2.2.2.2.2.2.2.2.2
  · have h0 := WU_decode_encode_qword (WU_encode_qwords w idx) hlen hbnd 2 (by omega)
    have hq0 : (WU_encode_qwords w idx).getD 2 (0, false) = (w.step_1_pos, true) := rfl
    rw [hq0] at h0
    exact h0
  · have h0 := WU_decode_encode_qword (WU_encode_qwords w idx) hlen hbnd 3 (by omega)
    have hq0 : (WU_encode_qwords w idx).getD 3 (0, false) = (w.step_2_pos, true) := rfl
    rw [hq0] at h0
    exact h0
  · apply List.ext_getElem
    · simp [WU_decode_d_clip, h.1]
    · intro k h1 h2
      have hk : k < 16 := by
        rw [h.1, hc16] at h2
        exact h2
      have hq := WU_decode_encode_qword (WU_encode_qwords w idx) hlen hbnd (4 + k) (by omega)
      have hqd : (WU_encode_qwords w idx).getD (4 + k) (0, false) =
          (w.d_clip.getD k 0, true) := by
        rw [WU_encode_qwords_getD w idx (4 + k) (by omega), hc16]
        rw [if_neg (by omega), if_neg (by omega), if_neg (by omega), if_neg (by omega),
          if_pos (by omega)]
        have he : 4 + k - 4 = k := by omega
        rw [he]
      rw [hqd] at hq
      dsimp only at hq
      have hrec : WU_encode_record w idx = WU_encode_block (WU_encode_qwords w idx) := rfl
      simp only [WU_decode_d_clip]
      rw [List.getElem_map]
      simp only [List.getElem_range]
      rw [hrec, hq, List.getD_eq_getElem?_getD, List.getElem?_eq_getElem h2]
      rfl
  · apply List.ext_getElem
    · simp [WU_decode_o_clip, h.2.1]
    · intro k h1 h2
      have hk : k < 4 := by
        rw [h.2.1, hc4] at h2
        exact h2
      have hq := WU_decode_encode_qword (WU_encode_qwords w idx) hlen hbnd (20 + k) (by omega)
      have hqd : (WU_encode_qwords w idx).getD (20 + k) (0, false) =
          (w.o_clip.getD k 0, true) := by
        rw [WU_encode_qwords_getD w idx (20 + k) (by omega), hc16, hc4]
        rw [if_neg (by omega), if_neg (by omega), if_neg (by omega), if_neg (by omega),
          if_neg (by omega), if_pos (by omega)]
        have he : 20 + k - 4 - 16 = k := by omega
        rw [he]
      rw [hqd] at hq
      dsimp only at hq
      have hrec : WU_encode_record w idx = WU_encode_block (WU_encode_qwords w idx) := rfl
      simp only [WU_decode_o_clip]
      rw [List.getElem_map]
      simp only [List.getElem_range]
      have hidx2 : 4 + d_clip_tiles_QW * d_tile_H + k = 20 + k := by rw [hc16]
      rw [hidx2, hrec, hq, List.getD_eq_getElem?_getD, List.getElem?_eq_getElem h2]
      rfl
  · have h0 := WU_decode_encode_qword (WU_encode_qwords w idx) hlen hbnd 24 (by omega)
    have hq0 : (WU_encode_qwords w idx).getD 24 (0, false) = (idx, false) := rfl
    rw [hq0] at h0
    exact h0

/-- Record `i` of the emitted blob is the record of descriptor `i`. -/
theorem WU_encode_from_get (w0 : work_info) :
    ∀ (ws : List work_info) (i0 i : Nat), i < ws.length →
      ((WU_encode_from i0 ws).drop (64 * i)).take 64 =
        WU_encode_record (ws.getD i w0) (i0 + i) := by
  intro ws
  induction ws with
  | nil => intro i0 i h; simp at h
  | cons w ws ih =>
    intro i0 i h
    rcases i with _ | i
    · simp only [WU_encode_from]
      rw [Nat.mul_zero, List.drop_zero, List.take_left' (WU_encode_record_length w i0)]
      rfl
    · simp only [WU_encode_from]
      have hd : 64 * (i + 1) = 64 + 64 * i := by ring
      rw [hd, ← List.drop_drop, List.drop_left' (WU_encode_record_length w i0)]
      rw [ih (i0 + 1) i (by simpa using h)]
      rw [List.getD_cons_succ]
      congr 1
      omega

theorem getD_modify_ne (f : Nat → Nat) (n : Nat) (L : List Nat) (m : Nat) (h : m ≠ n) :
    (L.modify f n).getD m 0 = L.getD m 0 := by
  rw [List.getD_eq_getElem?_getD, List.getD_eq_getElem?_getD,
    List.getElem?_modify_ne f L (Ne.symm h)]

theorem getD_modify_eq (f : Nat → Nat) (n : Nat) (L : List Nat) (h : n < L.length) :
    (L.modify f n).getD n 0 = f (L.getD n 0) := by
  rw [List.getD_eq_getElem?_getD, List.getD_eq_getElem?_getD, List.getElem?_modify_eq,
    List.getElem?_eq_getElem h]
  rfl

/-- One row pass of the clip-mask update: modifying entries `b + j` for
`j < r` in order. -/
theorem range_foldl_modify_spec (r b : Nat) (h : Nat → Nat → Nat) (L : List Nat) :
    (((List.range r).foldl (fun acc j => acc.modify (h j) (b + j)) L).length = L.length) ∧
    (∀ e, (e < b ∨ b + r ≤ e) →
      ((List.range r).foldl (fun acc j => acc.modify (h j) (b + j)) L).getD e 0 =
        L.getD e 0) ∧
    (∀ j, j < r → b + j < L.length →
      ((List.range r).foldl (fun acc j => acc.modify (h j) (b + j)) L).getD (b + j) 0 =
        h j (L.getD (b + j) 0)) := by
  induction r with
  | zero => exact ⟨rfl, fun e he => rfl, fun j hj => absurd hj (by omega)⟩
  | succ r ih =>
    rw [List.range_succ]
    simp only [List.foldl_append, List.foldl_cons, List.foldl_nil]
    refine ⟨by rw [List.length_modify, ih.1], ?_, ?_⟩
    · intro e he
      rw [getD_modify_ne _ _ _ _ (by omega), ih.2.1 e (by omega)]
    · intro j hj hjl
      rcases Decidable.em (j = r) with hjr | hjr
      · subst hjr
        rw [getD_modify_eq _ _ _ (by rw [ih.1]; omega), ih.2.1 (b + j) (by omega)]
      · rw [getD_modify_ne _ _ _ _ (by omega), ih.2.2 j (by omega) hjl]

/-- The nested (column, row) clip-mask update: `npass` passes each
appending one bit to the `r` rows at `b`, growing each accumulator by at
most a factor `2^npass` plus new low bits. -/
theorem range_foldl_nested_modify (npass r b : Nat) (h2 : Nat → Nat → Nat → Nat)
    (hb : ∀ i j q, h2 i j q ≤ 2 * q + 1) (L : List Nat) :
    (((List.range npass).foldl
        (fun acc i => (List.range r).foldl
          (fun acc2 j => acc2.modify (h2 i j) (b + j)) acc) L).length = L.length) ∧
    (∀ e, (e < b ∨ b + r ≤ e) →
      ((List.range npass).foldl
        (fun acc i => (List.range r).foldl
          (fun acc2 j => acc2.modify (h2 i j) (b + j)) acc) L).getD e 0 = L.getD e 0) ∧
    (∀ e, e < L.length →
      ((List.range npass).foldl
        (fun acc i => (List.range r).foldl
          (fun acc2 j => acc2.modify (h2 i j) (b + j)) acc) L).getD e 0 <
        2 ^ npass * (L.getD e 0 + 1)) := by
  induction npass with
  | zero =>
    refine ⟨rfl, fun e he => rfl, fun e he => ?_⟩
    simp only [List.range_zero, List.foldl_nil, Nat.pow_zero]
    omega
  | succ npass ih =>
    rw [List.range_succ]
    simp only [List.foldl_append, List.foldl_cons, List.foldl_nil]
    have hpass := range_foldl_modify_spec r b (h2 npass)
      ((List.range npass).foldl
        (fun acc i => (List.range r).foldl
          (fun acc2 j => acc2.modify (h2 i j) (b + j)) acc) L)
    refine ⟨by rw [hpass.1, ih.1], ?_, ?_⟩
    · intro e he
      rw [hpass.2.1 e he, ih.2.1 e he]
    · intro e he
      have hlen : e < ((List.range npass).foldl
          (fun acc i => (List.range r).foldl
            (fun acc2 j => acc2.modify (h2 i j) (b + j)) acc) L).length := by
        rw [ih.1]
        exact he
      have hprev := ih.2.2 e he
      have hpow : 2 ^ (npass + 1) = 2 * 2 ^ npass := by
        rw [Nat.pow_succ]
        ring
      have hmono : 2 ^ npass * (L.getD e 0 + 1) ≤ 2 ^ (npass + 1) * (L.getD e 0 + 1) :=
        Nat.mul_le_mul_right _ (Nat.pow_le_pow_right (by omega) (by omega))
      have hge : L.getD e 0 + 1 ≤ 2 ^ npass * (L.getD e 0 + 1) :=
        Nat.le_mul_of_pos_left _ (Nat.pow_pos (by omega))
      rcases Decidable.em (e < b ∨ b + r ≤ e) with hout | hout
      · rw [hpass.2.1 e hout, ih.2.1 e hout]
        omega
      · have hin : b ≤ e ∧ e < b + r := by omega
        obtain ⟨j, hj, rfl⟩ : ∃ j, j < r ∧ b + j = e := ⟨e - b, by omega, by omega⟩
        rw [hpass.2.2 j hj hlen]
        have hstep := hb npass j (((List.range npass).foldl
          (fun acc i => (List.range r).foldl
            (fun acc2 j => acc2.modify (h2 i j) (b + j)) acc) L).getD (b + j) 0)
        have hD : 2 ^ (npass + 1) * (L.getD (b + j) 0 + 1) =
            2 * (2 ^ npass * (L.getD (b + j) 0 + 1)) := by
          rw [hpow]
          ring
        omega

/-- Effect of one lane's mask loops on the `work_info`: offsets and flag
accumulators untouched, mask lengths preserved, each mask entry grows by at
most 4 (resp. 2) appended bits, and only the entries of the lane's own
qword block are touched. -/
theorem WU_lane_clips_spec (N H W o_H o_W n_tile : Nat) (c : WU_cursor) (wi : work_info) :
    (WU_lane_clips N H W o_H o_W n_tile c wi).d_load_offset_addr = wi.d_load_offset_addr ∧
    (WU_lane_clips N H W o_H o_W n_tile c wi).o_store_offset_addr = wi.o_store_offset_addr ∧
    (WU_lane_clips N H W o_H o_W n_tile c wi).step_1_pos = wi.step_1_pos ∧
    (WU_lane_clips N H W o_H o_W n_tile c wi).step_2_pos = wi.step_2_pos ∧
    (WU_lane_clips N H W o_H o_W n_tile c wi).d_clip.length = wi.d_clip.length ∧
    (WU_lane_clips N H W o_H o_W n_tile c wi).o_clip.length = wi.o_clip.length ∧
    (∀ e, e < wi.d_clip.length →
      (WU_lane_clips N H W o_H o_W n_tile c wi).d_clip.getD e 0 <
        2 ^ 4 * (wi.d_clip.getD e 0 + 1)) ∧
    (∀ e, e < wi.o_clip.length →
      (WU_lane_clips N H W o_H o_W n_tile c wi).o_clip.getD e 0 <
        2 ^ 2 * (wi.o_clip.getD e 0 + 1)) ∧
    (∀ e, e / 4 ≠ n_tile / 16 →
      (WU_lane_clips N H W o_H o_W n_tile c wi).d_clip.getD e 0 = wi.d_clip.getD e 0) ∧
    (∀ e, e / 2 ≠ n_tile / 32 →
      (WU_lane_clips N H W o_H o_W n_tile c wi).o_clip.getD e 0 = wi.o_clip.getD e 0) := by
  have hbd : ∀ i j q,
      (fun i j q =>
        2 * q + (WU_d_clip_bit N H W c.d_cur_w c.d_cur_h c.cur_n i j).toNat) i j q ≤
        2 * q + 1 := by
    intro i j q
    have := Bool.toNat_lt (WU_d_clip_bit N H W c.d_cur_w c.d_cur_h c.cur_n i j)
    simp only []
    omega
  have hbo : ∀ i j q,
      (fun i j q =>
        2 * q + (WU_o_clip_bit N o_H o_W c.o_cur_w c.o_cur_h c.cur_n i j).toNat) i j q ≤
        2 * q + 1 := by
    intro i j q
    have := Bool.toNat_lt (WU_o_clip_bit N o_H o_W c.o_cur_w c.o_cur_h c.cur_n i j)
    simp only []
    omega
  have hd := range_foldl_nested_modify d_tile_W d_tile_H
    (d_tile_H * (n_tile * d_tile_W / 64))
    (fun i j q => 2 * q + (WU_d_clip_bit N H W c.d_cur_w c.d_cur_h c.cur_n i j).toNat)
    hbd wi.d_clip
  have ho := range_foldl_nested_modify o_tile_W o_tile_H
    (o_tile_H * (n_tile * o_tile_W / 64))
    (fun i j q => 2 * q + (WU_o_clip_bit N o_H o_W c.o_cur_w c.o_cur_h c.cur_n i j).toNat)
    hbo wi.o_clip
  simp only [] at hd ho
  have hc5 : (WU_lane_clips N H W o_H o_W n_tile c wi).d_clip =
      (List.range d_tile_W).foldl (fun acc i =>
        (List.range d_tile_H).foldl (fun acc2 j =>
          acc2.modify
            (fun q => 2 * q + (WU_d_clip_bit N H W c.d_cur_w c.d_cur_h c.cur_n i j).toNat)
            (d_tile_H * (n_tile * d_tile_W / 64) + j)) acc) wi.d_clip := rfl
  have hc6 : (WU_lane_clips N H W o_H o_W n_tile c wi).o_clip =
      (List.range o_tile_W).foldl (fun acc i =>
        (List.range o_tile_H).foldl (fun acc2 j =>
          acc2.modify
            (fun q => 2 * q + (WU_o_clip_bit N o_H o_W c.o_cur_w c.o_cur_h c.cur_n i j).toNat)
            (o_tile_H * (n_tile * o_tile_W / 64) + j)) acc) wi.o_clip := rfl
  refine ⟨rfl, rfl, rfl, rfl, by rw [hc5]; exact hd.1, by rw [hc6]; exact ho.1,
    ?_, ?_, ?_, ?_⟩
  · intro e he
    rw [hc5]
    exact hd.2.2 e he
  · intro e he
    rw [hc6]
    exact ho.2.2 e he
  · intro e hne
    rw [hc5]
    refine hd.2.1 e ?_
    have h1 : d_tile_H = 4 := rfl
    have h2 : d_tile_W = 4 := rfl
    rw [h1, h2]
    omega
  · intro e hne
    rw [hc6]
    refine ho.2.1 e ?_
    have h1 : o_tile_H = 2 := rfl
    have h2 : o_tile_W = 2 := rfl
    rw [h1, h2]
    omega

/-- Lane `m` preserves the offsets and advances the size invariant from
`m` to `m + 1`. -/
theorem WU_wi_bound_lane (N H W o_H o_W pad_H pad_W m : Nat) (hm : m < 64)
    (q : work_info × WU_cursor) (hq : WU_wi_bound m q.1) :
    WU_wi_bound (m + 1) (WU_lane N H W o_H o_W pad_H pad_W q m).1 ∧
    (WU_lane N H W o_H o_W pad_H pad_W q m).1.d_load_offset_addr = q.1.d_load_offset_addr ∧
    (WU_lane N H W o_H o_W pad_H pad_W q m).1.o_store_offset_addr = q.1.o_store_offset_addr := by
  obtain ⟨hl1, hl2, hs1, hs2, hdb, hob⟩ := hq
  obtain ⟨ho1, ho2, hp1, hp2, hL1, hL2, hg1, hg2, hu1, hu2⟩ :=
    WU_lane_clips_spec N H W o_H o_W m q.2 q.1
  have hpow : 2 ^ (m + 1) = 2 * 2 ^ m := by
    rw [Nat.pow_succ]
    ring
  have hf1 : (WU_lane N H W o_H o_W pad_H pad_W q m).1.d_load_offset_addr =
      (WU_lane_clips N H W o_H o_W m q.2 q.1).d_load_offset_addr := rfl
  have hf2 : (WU_lane N H W o_H o_W pad_H pad_W q m).1.o_store_offset_addr =
      (WU_lane_clips N H W o_H o_W m q.2 q.1).o_store_offset_addr := rfl
  have hf3 : (WU_lane N H W o_H o_W pad_H pad_W q m).1.step_1_pos =
      2 * (WU_lane_clips N H W o_H o_W m q.2 q.1).step_1_pos +
        (WU_lane_advance o_H o_W pad_H pad_W q.2).2.1.toNat := rfl
  have hf4 : (WU_lane N H W o_H o_W pad_H pad_W q m).1.step_2_pos =
      2 * (WU_lane_clips N H W o_H o_W m q.2 q.1).step_2_pos +
        (WU_lane_advance o_H o_W pad_H pad_W q.2).2.2.toNat := rfl
  have hf5 : (WU_lane N H W o_H o_W pad_H pad_W q m).1.d_clip =
      (WU_lane_clips N H W o_H o_W m q.2 q.1).d_clip := rfl
  have hf6 : (WU_lane N H W o_H o_W pad_H pad_W q m).1.o_clip =
      (WU_lane_clips N H W o_H o_W m q.2 q.1).o_clip := rfl
  refine ⟨⟨by rw [hf5, hL1, hl1], by rw [hf6, hL2, hl2], ?_, ?_, ?_, ?_⟩,
    by rw [hf1, ho1], by rw [hf2, ho2]⟩
  · have hb1 := Bool.toNat_lt (WU_lane_advance o_H o_W pad_H pad_W q.2).2.1
    rw [hf3, hp1]
    omega
  · have hb2 := Bool.toNat_lt (WU_lane_advance o_H o_W pad_H pad_W q.2).2.2
    rw [hf4, hp2]
    omega
  · intro e he
    rw [hf5]
    rcases Decidable.em (e / 4 = m / 16) with ht | ht
    · have hexp : min 16 (m + 1 - 16 * (e / 4)) = min 16 (m - 16 * (e / 4)) + 1 := by
        omega
      rw [hexp]
      calc (WU_lane_clips N H W o_H o_W m q.2 q.1).d_clip.getD e 0
          < 2 ^ 4 * (q.1.d_clip.getD e 0 + 1) := hg1 e (by omega)
        _ ≤ 2 ^ 4 * 2 ^ (4 * min 16 (m - 16 * (e / 4))) :=
            Nat.mul_le_mul_left _ (hdb e he)
        _ = 2 ^ (4 * (min 16 (m - 16 * (e / 4)) + 1)) := by
            rw [← pow_add]
            congr 1
            ring
    · have hexp : min 16 (m + 1 - 16 * (e / 4)) = min 16 (m - 16 * (e / 4)) := by
        omega
      rw [hexp, hu1 e ht]
      exact hdb e he
  · intro e he
    rw [hf6]
    rcases Decidable.em (e / 2 = m / 32) with ht | ht
    · have hexp : min 32 (m + 1 - 32 * (e / 2)) = min 32 (m - 32 * (e / 2)) + 1 := by
        omega
      rw [hexp]
      calc (WU_lane_clips N H W o_H o_W m q.2 q.1).o_clip.getD e 0
          < 2 ^ 2 * (q.1.o_clip.getD e 0 + 1) := hg2 e (by omega)
        _ ≤ 2 ^ 2 * 2 ^ (2 * min 32 (m - 32 * (e / 2))) :=
            Nat.mul_le_mul_left _ (hob e he)
        _ = 2 ^ (2 * (min 32 (m - 32 * (e / 2)) + 1)) := by
            rw [← pow_add]
            congr 1
            ring
    · have hexp : min 32 (m + 1 - 32 * (e / 2)) = min 32 (m - 32 * (e / 2)) := by
        omega
      rw [hexp, hu2 e ht]
      exact hob e he

/-- Folding the first `m ≤ 64` lanes establishes the size invariant at `m`
and leaves the offsets at their initial values. -/
theorem WU_lanes_fold_wi (N H W o_H o_W pad_H pad_W : Nat) (p0 : work_info × WU_cursor)
    (h0 : WU_wi_bound 0 p0.1) :
    ∀ m, m ≤ 64 →
      WU_wi_bound m (((List.range m).foldl (WU_lane N H W o_H o_W pad_H pad_W) p0).1) ∧
      ((List.range m).foldl (WU_lane N H W o_H o_W pad_H pad_W) p0).1.d_load_offset_addr =
        p0.1.d_load_offset_addr ∧
      ((List.range m).foldl (WU_lane N H W o_H o_W pad_H pad_W) p0).1.o_store_offset_addr =
        p0.1.o_store_offset_addr := by
  intro m
  induction m with
  | zero => exact fun _ => ⟨h0, rfl, rfl⟩
  | succ m ih =>
    intro hm
    have ihm := ih (by omega)
    rw [List.range_succ]
    simp only [List.foldl_append, List.foldl_cons, List.foldl_nil]
    have hstep := WU_wi_bound_lane N H W o_H o_W pad_H pad_W m (by omega)
      ((List.range m).foldl (WU_lane N H W o_H o_W pad_H pad_W) p0) ihm.1
    exact ⟨hstep.1, by rw [hstep.2.1, ihm.2.1], by rw [hstep.2.2, ihm.2.2]⟩

/-- After all 64 lanes, the size invariant gives the `WU_inRange` mask and
flag bounds; only the offset bounds must be supplied. -/
theorem WU_wi_bound_inRange (w : work_info) (hb : WU_wi_bound 64 w)
    (hdo1 : -(2 ^ 63 : Int) ≤ w.d_load_offset_addr) (hdo2 : w.d_load_offset_addr < 2 ^ 63)
    (hoo1 : -(2 ^ 63 : Int) ≤ w.o_store_offset_addr) (hoo2 : w.o_store_offset_addr < 2 ^ 63) :
    WU_inRange w := by
  obtain ⟨hL1, hL2, hs1, hs2, hde, hoe⟩ := hb
  refine ⟨by rw [hL1]; rfl, by rw [hL2]; rfl, ?_, ?_, hs1, hs2, hdo1, hdo2, hoo1, hoo2⟩
  · intro q hq
    obtain ⟨i, hi, hqe⟩ := List.mem_iff_getElem.mp hq
    have hi16 : i < 16 := by omega
    have hbd := hde i hi16
    have hexp : min 16 (64 - 16 * (i / 4)) = 16 := by omega
    rw [hexp] at hbd
    have hgd : w.d_clip.getD i 0 = w.d_clip[i] := by
      rw [List.getD_eq_getElem?_getD, List.getElem?_eq_getElem hi]
      rfl
    rw [← hqe, ← hgd]
    exact lt_of_lt_of_le hbd (by norm_num)
  · intro q hq
    obtain ⟨i, hi, hqe⟩ := List.mem_iff_getElem.mp hq
    have hi4 : i < 4 := by omega
    have hbd := hoe i hi4
    have hexp : min 32 (64 - 32 * (i / 2)) = 32 := by omega
    rw [hexp] at hbd
    have hgd : w.o_clip.getD i 0 = w.o_clip[i] := by
      rw [List.getD_eq_getElem?_getD, List.getElem?_eq_getElem hi]
      rfl
    rw [← hqe, ← hgd]
    exact lt_of_lt_of_le hbd (by norm_num)

theorem WU_int_term_bound (x : Int) (s : Nat) (hx1 : -(2 ^ 16) ≤ x) (hx2 : x ≤ 2 ^ 16)
    (hs : s ≤ 2 ^ 30) :
    -(2 ^ 46 : Int) ≤ x * s ∧ x * s ≤ 2 ^ 46 := by
  have hs0 : (0 : Int) ≤ (s : Int) := Int.ofNat_nonneg s
  have hsle : (s : Int) ≤ 2 ^ 30 := by exact_mod_cast hs
  have hup : (2 ^ 16 : Int) * s ≤ 2 ^ 16 * 2 ^ 30 :=
    mul_le_mul_of_nonneg_left hsle (by norm_num)
  constructor
  · have h1 : -(2 ^ 16 : Int) * s ≤ x * s := mul_le_mul_of_nonneg_right hx1 hs0
    have h2 : -(2 ^ 46 : Int) ≤ -(2 ^ 16 : Int) * s := by
      have : -(2 ^ 16 : Int) * s = -((2 ^ 16 : Int) * s) := by ring
      rw [this]
      omega
    linarith
  · have h1 : x * s ≤ (2 ^ 16 : Int) * s := mul_le_mul_of_nonneg_right hx2 hs0
    linarith

/-- The input-offset expression of a descriptor fits in `int64_t` under
16-bit extents and pads and 30-bit strides. -/
theorem WU_offset_d_in_int64 (aw pw sw ah ph sh n sn : Nat)
    (haw : aw ≤ 2 ^ 16) (hpw : pw ≤ 2 ^ 16) (hsw : sw ≤ 2 ^ 30)
    (hah : ah ≤ 2 ^ 16) (hph : ph ≤ 2 ^ 16) (hsh : sh ≤ 2 ^ 30)
    (hn : n ≤ 2 ^ 16) (hsn : sn ≤ 2 ^ 30) :
    -(2 ^ 63 : Int) ≤
        ((aw : Int) - (pw : Int)) * (sw : Int) + ((ah : Int) - (ph : Int)) * (sh : Int) +
          (n : Int) * (sn : Int) ∧
      ((aw : Int) - (pw : Int)) * (sw : Int) + ((ah : Int) - (ph : Int)) * (sh : Int) +
          (n : Int) * (sn : Int) < 2 ^ 63 := by
  have h1 := WU_int_term_bound ((aw : Int) - (pw : Int)) sw (by omega) (by omega) hsw
  have h2 := WU_int_term_bound ((ah : Int) - (ph : Int)) sh (by omega) (by omega) hsh
  have h3 := WU_int_term_bound ((n : Int)) sn (by omega) (by omega) hsn
  constructor
  · linarith [h1.1, h2.1, h3.1]
  · linarith [h1.2, h2.2, h3.2]

/-- The output-offset expression of a descriptor fits in `int64_t` under
16-bit extents and 30-bit strides. -/
theorem WU_offset_o_in_int64 (aw sw ah sh n sn : Nat)
    (haw : aw ≤ 2 ^ 16) (hsw : sw ≤ 2 ^ 30) (hah : ah ≤ 2 ^ 16) (hsh : sh ≤ 2 ^ 30)
    (hn : n ≤ 2 ^ 16) (hsn : sn ≤ 2 ^ 30) :
    -(2 ^ 63 : Int) ≤
        (aw : Int) * (sw : Int) + (ah : Int) * (sh : Int) + (n : Int) * (sn : Int) ∧
      (aw : Int) * (sw : Int) + (ah : Int) * (sh : Int) + (n : Int) * (sn : Int) < 2 ^ 63 := by
  have h1 := WU_int_term_bound ((aw : Int)) sw (by omega) (by omega) hsw
  have h2 := WU_int_term_bound ((ah : Int)) sh (by omega) (by omega) hsh
  have h3 := WU_int_term_bound ((n : Int)) sn (by omega) (by omega) hsn
  constructor
  · linarith [h1.1, h2.1, h3.1]
  · linarith [h1.2, h2.2, h3.2]

theorem getD_replicate_zero (n e : Nat) : (List.replicate n (0 : Nat)).getD e 0 = 0 := by
  rw [List.getD_eq_getElem?_getD, List.getElem?_replicate]
  split <;> rfl

/-- Every descriptor the walk emits is within `WU_inRange`, provided the
problem extents and pads fit in 16 bits and the strides in 30 bits. -/
theorem WU_descriptor_inRange (N H W o_H o_W pad_H pad_W dsN dsH dsW osN osH osW : Nat)
    (s : WU_state) (hw : s.o_cur_w < o_W) (hh : s.o_cur_h < o_H) (hn : s.cur_n < N)
    (hN : N ≤ 2 ^ 16) (hoH : o_H ≤ 2 ^ 16) (hoW : o_W ≤ 2 ^ 16)
    (hpH : pad_H ≤ 2 ^ 16) (hpW : pad_W ≤ 2 ^ 16)
    (hd1 : dsN ≤ 2 ^ 30) (hd2 : dsH ≤ 2 ^ 30) (hd3 : dsW ≤ 2 ^ 30)
    (ho1 : osN ≤ 2 ^ 30) (ho2 : osH ≤ 2 ^ 30) (ho3 : osW ≤ 2 ^ 30) :
    WU_inRange (WU_descriptor N H W o_H o_W pad_H pad_W dsN dsH dsW osN osH osW s).1 := by
  have h0 : WU_wi_bound 0
      ({ d_load_offset_addr :=
            ((s.o_cur_w : Int) - (pad_W : Int)) * (dsW : Int) +
              ((s.o_cur_h : Int) - (pad_H : Int)) * (dsH : Int) + (s.cur_n : Int) * (dsN : Int)
         o_store_offset_addr :=
            (s.o_cur_w : Int) * (osW : Int) + (s.o_cur_h : Int) * (osH : Int) +
              (s.cur_n : Int) * (osN : Int)
         step_1_pos := 0
         step_2_pos := 0
         d_clip := List.replicate (d_clip_tiles_QW * d_tile_H) 0
         o_clip := List.replicate (o_clip_tiles_QW * o_tile_H) 0 } : work_info) := by
    refine ⟨by rw [List.length_replicate]; rfl, by rw [List.length_replicate]; rfl,
      by norm_num, by norm_num, ?_, ?_⟩
    · intro e he
      dsimp only
      rw [getD_replicate_zero]
      exact Nat.two_pow_pos _
    · intro e he
      dsimp only
      rw [getD_replicate_zero]
      exact Nat.two_pow_pos _
  have hfold := WU_lanes_fold_wi N H W o_H o_W pad_H pad_W
    ({ d_load_offset_addr :=
          ((s.o_cur_w : Int) - (pad_W : Int)) * (dsW : Int) +
            ((s.o_cur_h : Int) - (pad_H : Int)) * (dsH : Int) + (s.cur_n : Int) * (dsN : Int)
       o_store_offset_addr :=
          (s.o_cur_w : Int) * (osW : Int) + (s.o_cur_h : Int) * (osH : Int) +
            (s.cur_n : Int) * (osN : Int)
       step_1_pos := 0
       step_2_pos := 0
       d_clip := List.replicate (d_clip_tiles_QW * d_tile_H) 0
       o_clip := List.replicate (o_clip_tiles_QW * o_tile_H) 0 },
     ⟨s.o_cur_w, s.o_cur_h, (s.o_cur_w : Int) - (pad_W : Int),
       (s.o_cur_h : Int) - (pad_H : Int), s.cur_n⟩) h0 64 (by omega)
  have hdoff := WU_offset_d_in_int64 s.o_cur_w pad_W dsW s.o_cur_h pad_H dsH s.cur_n dsN
    (by omega) hpW hd3 (by omega) hpH hd2 (by omega) hd1
  have hooff := WU_offset_o_in_int64 s.o_cur_w osW s.o_cur_h osH s.cur_n osN
    (by omega) ho3 (by omega) ho2 (by omega) ho1
  unfold WU_descriptor
  dsimp only
  have hgs : group_size = 64 := rfl
  rw [hgs]
  refine WU_wi_bound_inRange _ hfold.1 ?_ ?_ ?_ ?_
  · rw [hfold.2.1]
    exact hdoff.1
  · rw [hfold.2.1]
    exact hdoff.2
  · rw [hfold.2.2]
    exact hooff.1
  · rw [hfold.2.2]
    exact hooff.2

/-- Every descriptor emitted by the walk is within `WU_inRange`. -/
theorem WU_walk_go_inRange (N H W o_H o_W pad_H pad_W dsN dsH dsW osN osH osW : Nat)
    (hN : N ≤ 2 ^ 16) (hoH : o_H ≤ 2 ^ 16) (hoW : o_W ≤ 2 ^ 16)
    (hpH : pad_H ≤ 2 ^ 16) (hpW : pad_W ≤ 2 ^ 16)
    (hd1 : dsN ≤ 2 ^ 30) (hd2 : dsH ≤ 2 ^ 30) (hd3 : dsW ≤ 2 ^ 30)
    (ho1 : osN ≤ 2 ^ 30) (ho2 : osH ≤ 2 ^ 30) (ho3 : osW ≤ 2 ^ 30) :
    ∀ (fuel : Nat) (s : WU_state),
      ∀ w ∈ WU_walk_go N H W o_H o_W pad_H pad_W dsN dsH dsW osN osH osW fuel s,
        WU_inRange w := by
  intro fuel
  induction fuel with
  | zero =>
    intro s w hw
    simp only [WU_walk_go, List.not_mem_nil] at hw
  | succ fuel ih =>
    intro s w hw
    rw [WU_walk_go] at hw
    rcases Decidable.em (s.o_cur_w < o_W ∧ s.o_cur_h < o_H ∧ s.cur_n < N) with hg | hg
    · rw [if_pos hg] at hw
      simp only [] at hw
      rcases List.mem_cons.mp hw with hw1 | hw2
      · rw [hw1]
        exact WU_descriptor_inRange N H W o_H o_W pad_H pad_W dsN dsH dsW osN osH osW s
          hg.1 hg.2.1 hg.2.2 hN hoH hoW hpH hpW hd1 hd2 hd3 ho1 ho2 ho3
      · exact ih _ w hw2
    · rw [if_neg hg] at hw
      simp only [List.not_mem_nil] at hw

/-- The walk emits at most one descriptor per unit of fuel. -/
theorem WU_walk_go_length_le (N H W o_H o_W pad_H pad_W dsN dsH dsW osN osH osW : Nat) :
    ∀ (fuel : Nat) (s : WU_state),
      (WU_walk_go N H W o_H o_W pad_H pad_W dsN dsH dsW osN osH osW fuel s).length ≤ fuel := by
  intro fuel
  induction fuel with
  | zero =>
    intro s
    simp [WU_walk_go]
  | succ fuel ih =>
    intro s
    rw [WU_walk_go]
    split
    · simp only [List.length_cons]
      exact Nat.succ_le_succ (ih _)
    · simp

/-- Interleaved block elements come from the block. -/
theorem WU_interleave_block_mem {α : Type} (blk : List α) (intl : Nat) (x : α)
    (hx : x ∈ WU_interleave_block blk intl) : x ∈ blk := by
  unfold WU_interleave_block at hx
  rw [List.mem_flatMap] at hx
  obtain ⟨k, _, hk⟩ := hx
  rw [List.mem_filterMap] at hk
  obtain ⟨j, _, hj⟩ := hk
  exact List.getElem?_mem hj

/-- Interleaved elements come from the input sequence. -/
theorem WU_interleave_mem {α : Type} (l : List α) (intl g : Nat) (x : α)
    (hx : x ∈ WU_interleave l intl g) : x ∈ l := by
  simp only [WU_interleave] at hx
  rw [List.mem_flatMap] at hx
  obtain ⟨b, _, hb⟩ := hx
  have hblk := WU_interleave_block_mem _ _ _ hb
  exact List.mem_of_mem_drop (List.mem_of_mem_take hblk)

end WinoUltra

namespace BatchNorm



end BatchNorm

/-! ## Claim theorems -/

open WinoUltra BatchNorm

/-- C3: for every descriptor sequence and every `interleave_factor ≥ 1` and
`group_count ≥ 1`, the interleave step produces a permutation of its input
(same length and multiset, nothing dropped or duplicated, including the
final partial block), and it is the identity when `interleave_factor = 1`. -/
theorem claim_C3_interleave_perm {α : Type} (l : List α) (intl_factor n_groups : Nat)
    (hi : 1 ≤ intl_factor) (hg : 1 ≤ n_groups) :
    (WU_interleave l intl_factor n_groups).Perm l ∧
    (WU_interleave l intl_factor n_groups).length = l.length ∧
    WU_interleave l 1 n_groups = l :=
  ⟨WU_interleave_perm l intl_factor n_groups hi hg,
   (WU_interleave_perm l intl_factor n_groups hi hg).length_eq,
   WU_interleave_one_eq l n_groups hg⟩

theorem claim_C3_witness :
    (1 ≤ 2 ∧ 1 ≤ 2) ∧
    ((WU_interleave [0, 1, 2, 3, 4, 5, 6, 7, 8, 9] 2 2).Perm [0, 1, 2, 3, 4, 5, 6, 7, 8, 9] ∧
     (WU_interleave [0, 1, 2, 3, 4, 5, 6, 7, 8, 9] 2 2).length =
       [0, 1, 2, 3, 4, 5, 6, 7, 8, 9].length ∧
     WU_interleave [0, 1, 2, 3, 4, 5, 6, 7, 8, 9] 1 2 = [0, 1, 2, 3, 4, 5, 6, 7, 8, 9]) :=
  ⟨⟨by decide, by decide⟩,
   claim_C3_interleave_perm [0, 1, 2, 3, 4, 5, 6, 7, 8, 9] 2 2 (by decide) (by decide)⟩

/-- C2 (counterexample to the claim as stated): for the spec's own scenario
`N = 1`, `H = W = 34`, `out_H = out_W = 32`, `pad = 1`, the compiled
descriptor count is NOT `N * ceil(out_H/2) * ceil(out_W/2) = 256`: each
descriptor's 64-lane loop advances the raster cursor once per lane, so one
descriptor covers 64 raster tiles and only 4 descriptors are compiled. -/
theorem claim_C2_counterexample :
    (WU_control_make_3x3_w_info 1 34 34 32 32 1 1 2312 68 2 2048 64 2).length ≠
      1 * 16 * 16 := by
  rw [WU_w_info_length 1 34 34 32 32 1 1 2312 68 2 2048 64 2 (by omega) (by omega)]
  decide

/-- C2 (amended): the compiled descriptor count equals
`ceil(N * ceil(out_H/2) * ceil(out_W/2) / 64)` — one descriptor per group of
64 raster tiles, each descriptor holding the 64 lanes — and the control blob
holds 64 32-bit words per descriptor (the interleave step preserves the
count). -/
theorem claim_C2_descriptor_count
    (N H W o_H o_W pad_H pad_W dsN dsH dsW osN osH osW n_groups intl_factor : Nat)
    (hN : 0 < N) (hH : 0 < H) (hW : 0 < W) (hoH : 0 < o_H) (hoW : 0 < o_W)
    (hi : 1 ≤ intl_factor) (hg : 1 ≤ n_groups) :
    (WU_control_make_3x3_w_info N H W o_H o_W pad_H pad_W dsN dsH dsW osN osH osW).length =
      (N * ((o_H + 1) / 2) * ((o_W + 1) / 2) + 63) / 64 ∧
    (WU_control_make_3x3 N H W o_H o_W pad_H pad_W dsN dsH dsW osN osH osW
        n_groups intl_factor).length =
      64 * ((N * ((o_H + 1) / 2) * ((o_W + 1) / 2) + 63) / 64) := by
  have hth : WU_tiles_H o_H = (o_H + 1) / 2 := by
    unfold WU_tiles_H o_tile_step_H o_tile_H; omega
  have htw : WU_tiles_W o_W = (o_W + 1) / 2 := by
    unfold WU_tiles_W o_tile_step_W o_tile_W; omega
  have ht : WU_total_tiles N o_H o_W = N * ((o_H + 1) / 2) * ((o_W + 1) / 2) := by
    unfold WU_total_tiles
    rw [hth, htw]
  have h1 := WU_w_info_length N H W o_H o_W pad_H pad_W dsN dsH dsW osN osH osW hoH hoW
  refine ⟨by rw [h1, ht], ?_⟩
  unfold WU_control_make_3x3 WU_control_w_info_bit_encode
  rw [WU_encode_from_length]
  have hp := WU_interleave_perm
    (WU_control_make_3x3_w_info N H W o_H o_W pad_H pad_W dsN dsH dsW osN osH osW)
    intl_factor n_groups hi hg
  rw [hp.length_eq, h1, ht]

theorem claim_C2_witness :
    (0 < 1 ∧ 0 < 34 ∧ 0 < 32 ∧ 1 ≤ 1 ∧ 1 ≤ 4) ∧
    ((WU_control_make_3x3_w_info 1 34 34 32 32 1 1 2312 68 2 2048 64 2).length =
        (1 * ((32 + 1) / 2) * ((32 + 1) / 2) + 63) / 64 ∧
     (WU_control_make_3x3 1 34 34 32 32 1 1 2312 68 2 2048 64 2 4 1).length =
        64 * ((1 * ((32 + 1) / 2) * ((32 + 1) / 2) + 63) / 64)) :=
  ⟨⟨by decide, by decide, by decide, by decide, by decide⟩,
   claim_C2_descriptor_count 1 34 34 32 32 1 1 2312 68 2 2048 64 2 4 1
     (by decide) (by decide) (by decide) (by decide) (by decide) (by decide) (by decide)⟩

/-- C9 (counterexample to the claim as stated): an input with both spatial
input dimensions zero (`H = W = 0`) but positive output dimensions still
produces a (fully clipped) descriptor — only `N`, `out_H`, `out_W` control
the loop. -/
theorem claim_C9_counterexample :
    (WU_control_make_3x3_w_info 1 0 0 2 2 2 2 1 1 1 1 1 1).length ≠ 0 := by
  rw [WU_w_info_length 1 0 0 2 2 2 2 1 1 1 1 1 1 (by omega) (by omega)]
  decide

/-- C9 (amended): for `N = 0` or `out_H = 0` or `out_W = 0` the compiler's
loop guard fails at entry, so it terminates at once with an empty descriptor
sequence and an empty control blob. -/
theorem claim_C9_empty
    (N H W o_H o_W pad_H pad_W dsN dsH dsW osN osH osW n_groups intl_factor : Nat)
    (h : N = 0 ∨ o_H = 0 ∨ o_W = 0) :
    WU_control_make_3x3_w_info N H W o_H o_W pad_H pad_W dsN dsH dsW osN osH osW = [] ∧
    WU_control_make_3x3 N H W o_H o_W pad_H pad_W dsN dsH dsW osN osH osW
      n_groups intl_factor = [] := by
  have hne : ¬ ((WU_state.mk 0 0 0).o_cur_w < o_W ∧ (WU_state.mk 0 0 0).o_cur_h < o_H ∧
      (WU_state.mk 0 0 0).cur_n < N) := by
    dsimp only
    rintro ⟨hw, hh, hn⟩
    rcases h with h | h | h <;> omega
  have h1 : WU_control_make_3x3_w_info N H W o_H o_W pad_H pad_W dsN dsH dsW osN osH osW
      = [] := by
    unfold WU_control_make_3x3_w_info
    rw [WU_walk_go, if_neg hne]
  refine ⟨h1, ?_⟩
  unfold WU_control_make_3x3
  rw [h1]
  have h2 : WU_interleave ([] : List work_info) intl_factor n_groups = [] := by
    simp only [WU_interleave, List.length_nil]
    have h3 : (0 + intl_factor * n_groups - 1) / (intl_factor * n_groups) = 0 := by
      rcases Nat.eq_zero_or_pos (intl_factor * n_groups) with h0 | h0
      · rw [h0]
      · apply Nat.div_eq_of_lt
        omega
    rw [h3]
    simp
  rw [h2]
  rfl

theorem claim_C9_witness :
    (0 = 0 ∨ 2 = 0 ∨ 2 = 0) ∧
    (WU_control_make_3x3_w_info 0 4 4 2 2 1 1 1 1 1 1 1 1 = [] ∧
     WU_control_make_3x3 0 4 4 2 2 1 1 1 1 1 1 1 1 2 1 = []) :=
  ⟨Or.inl rfl,
   claim_C9_empty 0 4 4 2 2 1 1 1 1 1 1 1 1 2 1 (Or.inl rfl)⟩

/-- C6 (code mismatch): the invoker's pre-dispatch sizing check compares the
workspace size against the fixed `GetWorkspaceSize() = 8192` bytes, not
against the control-blob size it is about to copy.  For `N = 1`,
`out_H = out_W = 128` the blob is `16384` bytes, yet a non-null workspace of
exactly `8192` bytes passes the check (no explicit sizing error is raised
before the copy), contradicting the claimed guarantee. -/
theorem claim_C6_workspace_check :
    ultra_workspace_guard_throws false 8192 ConvBinWinogradUltraRxSf2x3_GetWorkspaceSize =
      false ∧
    ultra_control_bytes
      (WU_control_make_3x3 1 130 130 128 128 1 1 33800 260 2 32768 256 2 1 1) = 16384 ∧
    8192 < 16384 := by
  refine ⟨by decide, ?_, by decide⟩
  unfold ultra_control_bytes WU_control_make_3x3 WU_control_w_info_bit_encode
  rw [WU_encode_from_length]
  have hp := WU_interleave_perm
    (WU_control_make_3x3_w_info 1 130 130 128 128 1 1 33800 260 2 32768 256 2) 1 1
    (by decide) (by decide)
  rw [hp.length_eq, WU_w_info_length 1 130 130 128 128 1 1 33800 260 2 32768 256 2
    (by omega) (by omega)]
  decide

/-! ### Batch-norm helpers shared by the applicability/variant claims -/

theorem bn_applicable_iff (dir : BNDirection) (mode : BNMode) (n c h w : Nat) :
    BnBwdTrainingSpatialSingle_IsApplicable dir mode n c h w = true ↔
      (dir = BNDirection.backward ∧ mode = BNMode.spatial ∧
        (bn_in_cstride h w ≤ 512 ∨ bn_in_nhw n h w < 32 * 1024 * 1024)) := by
  unfold BnBwdTrainingSpatialSingle_IsApplicable
  rcases dir <;> rcases mode <;> simp <;> omega

theorem bn_variant_eq_two_iff (xType sbType : MIDataType) (n c h w : Nat) :
    (bn_GetSolution_select xType sbType n c h w).variant = 2 ↔
      (512 < bn_in_cstride h w ∧ 32 * 1024 * 1024 ≤ bn_in_nhw n h w) := by
  simp only [bn_GetSolution_select]
  by_cases hov : bn_in_cstride h w < 200 ∧ 60 < bn_in_cstride h w ∧
      bn_bfpmix xType sbType = true
  · rw [if_pos hov]
    have hc := hov.1
    dsimp only
    omega
  · rw [if_neg hov]
    by_cases h1 : bn_in_nhw n h w < 32 * 1024 * 1024 ∧ bn_in_cstride h w > 1024
    · rw [if_pos h1]
      dsimp only
      omega
    · rw [if_neg h1]
      by_cases h2 : bn_in_nhw n h w < 32 * 1024 * 1024 ∧ bn_in_cstride h w > 512
      · rw [if_pos h2]
        dsimp only
        by_cases h3 : 32 ≤ n
        · rw [if_pos h3]
          omega
        · rw [if_neg h3]
          omega
      · rw [if_neg h2]
        by_cases h3 : bn_in_cstride h w ≤ 512
        · rw [if_pos h3]
          by_cases h4 : 64 < n ∧ 160 < bn_in_cstride h w
          · rw [if_pos h4]
            dsimp only
            omega
          · rw [if_neg h4]
            by_cases h5 : bn_bfp32 xType sbType = true
            · rw [if_pos h5]
              dsimp only
              omega
            · rw [if_neg h5]
              dsimp only
              omega
        · rw [if_neg h3]
          dsimp only
          omega

/-- C4 (counterexample to the claim as stated): a backward spatial problem
with `h = w = 1024`, `n = 32` (channel plane 2^20 > 512, total 2^25 = 32Mi)
is rejected by `IsApplicable`, so the size fields do affect the result. -/
theorem claim_C4_counterexample :
    ¬ (BnBwdTrainingSpatialSingle_IsApplicable BNDirection.backward BNMode.spatial
        32 1 1024 1024 = true ↔
       (BNDirection.backward = BNDirection.backward ∧ BNMode.spatial = BNMode.spatial)) := by
  decide

/-- C4 (amended): `IsApplicable` returns true iff the direction is backward,
the mode is spatial, AND the size condition `H*W ≤ 512 ∨ N*H*W < 32Mi`
holds (sizes computed as 32-bit unsigned values, as in the code). -/
theorem claim_C4_is_applicable (dir : BNDirection) (mode : BNMode) (n c h w : Nat) :
    BnBwdTrainingSpatialSingle_IsApplicable dir mode n c h w = true ↔
      (dir = BNDirection.backward ∧ mode = BNMode.spatial ∧
        (bn_in_cstride h w ≤ 512 ∨ bn_in_nhw n h w < 32 * 1024 * 1024)) :=
  bn_applicable_iff dir mode n c h w

/-- C10: a problem accepted by `IsApplicable` never selects variant 2 in
`GetSolution`; given backward/spatial, `IsApplicable` rejects exactly the
problems with `H*W > 512` and `N*H*W ≥ 32Mi`, and those are exactly the
problems whose decision-table row is the variant-2 row. -/
theorem claim_C10_variant2_unreachable (dir : BNDirection) (mode : BNMode)
    (xType sbType : MIDataType) (n c h w : Nat) :
    (BnBwdTrainingSpatialSingle_IsApplicable dir mode n c h w = true →
      (bn_GetSolution_select xType sbType n c h w).variant ≠ 2) ∧
    (dir = BNDirection.backward → mode = BNMode.spatial →
      (BnBwdTrainingSpatialSingle_IsApplicable dir mode n c h w = false ↔
        (512 < bn_in_cstride h w ∧ 32 * 1024 * 1024 ≤ bn_in_nhw n h w))) ∧
    ((bn_GetSolution_select xType sbType n c h w).variant = 2 ↔
      (512 < bn_in_cstride h w ∧ 32 * 1024 * 1024 ≤ bn_in_nhw n h w)) := by
  refine ⟨?_, ?_, bn_variant_eq_two_iff xType sbType n c h w⟩
  · intro happ h2
    have hd := (bn_applicable_iff dir mode n c h w).1 happ
    have hv := (bn_variant_eq_two_iff xType sbType n c h w).1 h2
    omega
  · intro hdir hmode
    subst hdir hmode
    have := bn_applicable_iff BNDirection.backward BNMode.spatial n c h w
    simp only [true_and] at this
    constructor
    · intro hfalse
      have h1 : ¬ (bn_in_cstride h w ≤ 512 ∨ bn_in_nhw n h w < 32 * 1024 * 1024) := by
        intro hd
        have := this.2 hd
        rw [hfalse] at this
        exact absurd this (by decide)
      omega
    · intro hgt
      rcases hb : BnBwdTrainingSpatialSingle_IsApplicable BNDirection.backward
          BNMode.spatial n c h w with _ | _
      · rfl
      · have := this.1 hb
        omega

theorem claim_C10_witness :
    (BnBwdTrainingSpatialSingle_IsApplicable BNDirection.backward BNMode.spatial
        2 3 4 4 = true →
      (bn_GetSolution_select MIDataType.float MIDataType.float 2 3 4 4).variant ≠ 2) ∧
    (BNDirection.backward = BNDirection.backward → BNMode.spatial = BNMode.spatial →
      (BnBwdTrainingSpatialSingle_IsApplicable BNDirection.backward BNMode.spatial
          2 3 4 4 = false ↔
        (512 < bn_in_cstride 4 4 ∧ 32 * 1024 * 1024 ≤ bn_in_nhw 2 4 4))) ∧
    ((bn_GetSolution_select MIDataType.float MIDataType.float 2 3 4 4).variant = 2 ↔
      (512 < bn_in_cstride 4 4 ∧ 32 * 1024 * 1024 ≤ bn_in_nhw 2 4 4)) :=
  claim_C10_variant2_unreachable BNDirection.backward BNMode.spatial
    MIDataType.float MIDataType.float 2 3 4 4

/-- C5: for a 4-D normalization-backward problem with channel plane
`H*W ≤ 512`, `GetSolution` picks variant 3 when (`N > 64` and `H*W > 160`)
and otherwise variant 0 with block size 1024 for full precision (fp32) and
256 otherwise; and when precision mixing is active and `60 < H*W < 200` the
override forces variant 1 with block size 1024 regardless of the earlier
rows. -/
theorem claim_C5_variant_table (xType sbType : MIDataType) (n c h w : Nat)
    (hcs : bn_in_cstride h w ≤ 512) :
    ((bn_bfpmix xType sbType = true ∧ 60 < bn_in_cstride h w ∧ bn_in_cstride h w < 200) →
      (bn_GetSolution_select xType sbType n c h w).variant = 1 ∧
      (bn_GetSolution_select xType sbType n c h w).xlocalsize = 1024) ∧
    (¬ (bn_bfpmix xType sbType = true ∧ 60 < bn_in_cstride h w ∧ bn_in_cstride h w < 200) →
      ((64 < n ∧ 160 < bn_in_cstride h w) →
        (bn_GetSolution_select xType sbType n c h w).variant = 3) ∧
      (¬ (64 < n ∧ 160 < bn_in_cstride h w) →
        (bn_GetSolution_select xType sbType n c h w).variant = 0 ∧
        (bn_GetSolution_select xType sbType n c h w).xlocalsize =
          (if bn_bfp32 xType sbType = true then 1024 else 256))) := by
  have h1 : ¬ (bn_in_nhw n h w < 32 * 1024 * 1024 ∧ bn_in_cstride h w > 1024) := by omega
  have h2 : ¬ (bn_in_nhw n h w < 32 * 1024 * 1024 ∧ bn_in_cstride h w > 512) := by omega
  constructor
  · rintro ⟨hmix, h60, h200⟩
    have hov : bn_in_cstride h w < 200 ∧ 60 < bn_in_cstride h w ∧
        bn_bfpmix xType sbType = true := ⟨h200, h60, hmix⟩
    simp only [bn_GetSolution_select]
    rw [if_pos hov]
    exact ⟨rfl, rfl⟩
  · intro hnov
    have hov2 : ¬ (bn_in_cstride h w < 200 ∧ 60 < bn_in_cstride h w ∧
        bn_bfpmix xType sbType = true) := by
      rintro ⟨ha, hb, hm⟩
      exact hnov ⟨hm, hb, ha⟩
    simp only [bn_GetSolution_select]
    rw [if_neg hov2, if_neg h1, if_neg h2, if_pos hcs]
    constructor
    · intro h4
      rw [if_pos h4]
    · intro h4
      rw [if_neg h4]
      by_cases h5 : bn_bfp32 xType sbType = true
      · rw [if_pos h5, if_pos h5]
        exact ⟨rfl, rfl⟩
      · rw [if_neg h5, if_neg h5]
        exact ⟨rfl, rfl⟩

theorem claim_C5_witness :
    bn_in_cstride 10 10 ≤ 512 ∧
    (bn_GetSolution_select MIDataType.float MIDataType.float 100 3 10 10).variant = 0 ∧
    (((bn_bfpmix MIDataType.float MIDataType.float = true ∧ 60 < bn_in_cstride 10 10 ∧
        bn_in_cstride 10 10 < 200) →
      (bn_GetSolution_select MIDataType.float MIDataType.float 100 3 10 10).variant = 1 ∧
      (bn_GetSolution_select MIDataType.float MIDataType.float 100 3 10 10).xlocalsize = 1024) ∧
     (¬ (bn_bfpmix MIDataType.float MIDataType.float = true ∧ 60 < bn_in_cstride 10 10 ∧
        bn_in_cstride 10 10 < 200) →
      ((64 < 100 ∧ 160 < bn_in_cstride 10 10) →
        (bn_GetSolution_select MIDataType.float MIDataType.float 100 3 10 10).variant = 3) ∧
      (¬ (64 < 100 ∧ 160 < bn_in_cstride 10 10) →
        (bn_GetSolution_select MIDataType.float MIDataType.float 100 3 10 10).variant = 0 ∧
        (bn_GetSolution_select MIDataType.float MIDataType.float 100 3 10 10).xlocalsize =
          (if bn_bfp32 MIDataType.float MIDataType.float = true then 1024 else 256)))) :=
  ⟨by decide, by decide,
   claim_C5_variant_table MIDataType.float MIDataType.float 100 3 10 10 (by decide)⟩

/-- C8: any problem with a non-unit kernel stride, non-unit dilation,
non-zero bias, non-single group count, or a non-NCHW input layout is
rejected by `ConvBinWinogradUltraRxSf2x3::IsApplicable`, whatever the other
problem and hardware fields and the debug switch are. -/
theorem claim_C8_applicable_false (p : ConvolutionContext) (disabled : Bool)
    (h : p.kernel_stride_w ≠ 1 ∨ p.kernel_stride_h ≠ 1 ∨ p.kernel_dilation_w ≠ 1 ∨
      p.kernel_dilation_h ≠ 1 ∨ p.bias ≠ 0 ∨ p.group_counts ≠ 1 ∨ p.in_layout ≠ "NCHW") :
    ConvBinWinogradUltraRxSf2x3_IsApplicable disabled p = false := by
  unfold ConvBinWinogradUltraRxSf2x3_IsApplicable IsApplicableBase
  split_ifs with hdis h1 h2 h3 h4 h5 h6 h7
  any_goals rfl
  exfalso
  obtain ⟨hs1, hs2, hd1, hd2, hb, hg, hl⟩ := h7
  rcases h with h | h | h | h | h | h | h
  · exact h hs1
  · exact h (by omega)
  · exact h hd1
  · exact h hd2
  · exact h hb
  · exact h hg
  · exact h hl

theorem claim_C8_witness :
    ((2 : Int) ≠ 1 ∨ (2 : Int) ≠ 1 ∨ (1 : Int) ≠ 1 ∨ (1 : Int) ≠ 1 ∨ (0 : Int) ≠ 0 ∨
      (1 : Int) ≠ 1 ∨ "NCHW" ≠ "NCHW") ∧
    ConvBinWinogradUltraRxSf2x3_IsApplicable false
      { is2d := true, isFp16 := true, use_asm_kernels := true, rmv_isV3 := true
        dir_isBackwardWrW := false, dir_isBackwardData := false, device_name := "gfx1030"
        kernel_stride_w := 2, kernel_stride_h := 2, kernel_dilation_w := 1
        kernel_dilation_h := 1, bias := 0, group_counts := 1, in_layout := "NCHW"
        n_inputs := 16, n_outputs := 16, kernel_size_h := 3, kernel_size_w := 3
        in_height := 34, in_width := 34, out_height := 32, out_width := 32, batch_sz := 1
        pad_w := 1, pad_h := 1, backward_pad_w := 1, backward_pad_h := 1
        max_hardware_compute_units := 36, is_layout_default := true } = false :=
  ⟨Or.inl (by decide),
   claim_C8_applicable_false _ false (Or.inl (by decide))⟩

/-- C7: a lane whose tile lies entirely outside the valid tensor region —
in particular any lane reached after the raster walk exhausted the batch
dimension (`N ≤ cur_n`) — contributes only 1-bits to its input and output
clip masks; such lanes are encoded like any other, every record carrying
`group_size` lanes in 64 words. -/
theorem claim_C7_fully_clipped (N H W o_H o_W : Nat) (c : WU_cursor) :
    (N ≤ c.cur_n →
      (∀ i j, i < d_tile_W → j < d_tile_H →
        WU_d_clip_bit N H W c.d_cur_w c.d_cur_h c.cur_n i j = true) ∧
      (∀ i j, i < o_tile_W → j < o_tile_H →
        WU_o_clip_bit N o_H o_W c.o_cur_w c.o_cur_h c.cur_n i j = true)) ∧
    ((∀ i j, i < d_tile_W → j < d_tile_H → ¬ WU_d_elem_valid N H W c i j) →
      ∀ i j, i < d_tile_W → j < d_tile_H →
        WU_d_clip_bit N H W c.d_cur_w c.d_cur_h c.cur_n i j = true) ∧
    ((∀ i j, i < o_tile_W → j < o_tile_H → ¬ WU_o_elem_valid N o_H o_W c i j) →
      ∀ i j, i < o_tile_W → j < o_tile_H →
        WU_o_clip_bit N o_H o_W c.o_cur_w c.o_cur_h c.cur_n i j = true) ∧
    (∀ ws : List work_info, (WU_control_w_info_bit_encode ws).length = 64 * ws.length) := by
  refine ⟨?_, ?_, ?_, ?_⟩
  · intro hn
    constructor
    · intro i j hi hj
      simp only [WU_d_clip_bit, Bool.or_eq_true, decide_eq_true_eq]
      tauto
    · intro i j hi hj
      simp only [WU_o_clip_bit, Bool.or_eq_true, decide_eq_true_eq]
      tauto
  · intro hval i j hi hj
    have h1 := hval i j hi hj
    simp only [WU_d_elem_valid, not_and, not_lt] at h1
    simp only [WU_d_clip_bit, Bool.or_eq_true, decide_eq_true_eq]
    omega
  · intro hval i j hi hj
    have h1 := hval i j hi hj
    simp only [WU_o_elem_valid, not_and, not_lt] at h1
    simp only [WU_o_clip_bit, Bool.or_eq_true, decide_eq_true_eq]
    omega
  · intro ws
    unfold WU_control_w_info_bit_encode
    exact WU_encode_from_length ws 0

theorem claim_C7_witness :
    ((1 ≤ (WU_cursor.mk 0 0 0 0 5).cur_n →
      (∀ i j, i < d_tile_W → j < d_tile_H →
        WU_d_clip_bit 1 4 4 (WU_cursor.mk 0 0 0 0 5).d_cur_w (WU_cursor.mk 0 0 0 0 5).d_cur_h
          (WU_cursor.mk 0 0 0 0 5).cur_n i j = true) ∧
      (∀ i j, i < o_tile_W → j < o_tile_H →
        WU_o_clip_bit 1 2 2 (WU_cursor.mk 0 0 0 0 5).o_cur_w (WU_cursor.mk 0 0 0 0 5).o_cur_h
          (WU_cursor.mk 0 0 0 0 5).cur_n i j = true)) ∧
    ((∀ i j, i < d_tile_W → j < d_tile_H → ¬ WU_d_elem_valid 1 4 4 (WU_cursor.mk 0 0 0 0 5) i j) →
      ∀ i j, i < d_tile_W → j < d_tile_H →
        WU_d_clip_bit 1 4 4 (WU_cursor.mk 0 0 0 0 5).d_cur_w (WU_cursor.mk 0 0 0 0 5).d_cur_h
          (WU_cursor.mk 0 0 0 0 5).cur_n i j = true) ∧
    ((∀ i j, i < o_tile_W → j < o_tile_H → ¬ WU_o_elem_valid 1 2 2 (WU_cursor.mk 0 0 0 0 5) i j) →
      ∀ i j, i < o_tile_W → j < o_tile_H →
        WU_o_clip_bit 1 2 2 (WU_cursor.mk 0 0 0 0 5).o_cur_w (WU_cursor.mk 0 0 0 0 5).o_cur_h
          (WU_cursor.mk 0 0 0 0 5).cur_n i j = true) ∧
    (∀ ws : List work_info, (WU_control_w_info_bit_encode ws).length = 64 * ws.length)) :=
  claim_C7_fully_clipped 1 4 4 2 2 (WU_cursor.mk 0 0 0 0 5)

/-- C1: decoding record `i` of the emitted control blob with the documented
lane/bit-order mapping (lanes 0/1 forward offsets, 2/3 bit-reversed flag
accumulators, 16 bit-reversed input clip qwords, 4 bit-reversed output clip
qwords, lane 24 the sequence index) reconstructs exactly the offsets, flag
accumulators, clip masks, and sequence index of descriptor `i` of the
(interleaved) descriptor sequence, for every problem whose extents and pads
fit in 16 bits and whose strides fit in 30 bits. -/
theorem claim_C1_roundtrip
    (N H W o_H o_W pad_H pad_W dsN dsH dsW osN osH osW n_groups intl_factor : Nat)
    (ws : List work_info) (blob : List Nat) (i : Nat) (w0 : work_info)
    (hN : N ≤ 2 ^ 16) (hoH : o_H ≤ 2 ^ 16) (hoW : o_W ≤ 2 ^ 16)
    (hpH : pad_H ≤ 2 ^ 16) (hpW : pad_W ≤ 2 ^ 16)
    (hd1 : dsN ≤ 2 ^ 30) (hd2 : dsH ≤ 2 ^ 30) (hd3 : dsW ≤ 2 ^ 30)
    (ho1 : osN ≤ 2 ^ 30) (ho2 : osH ≤ 2 ^ 30) (ho3 : osW ≤ 2 ^ 30)
    (hgrp : 1 ≤ n_groups) (hintl : 1 ≤ intl_factor)
    (hws : ws = WU_interleave
      (WU_control_make_3x3_w_info N H W o_H o_W pad_H pad_W dsN dsH dsW osN osH osW)
      intl_factor n_groups)
    (hblob : blob = WU_control_make_3x3 N H W o_H o_W pad_H pad_W dsN dsH dsW osN osH osW
      n_groups intl_factor)
    (hi : i < ws.length) :
    WU_decode_d_offset (WU_record blob i) = (ws.getD i w0).d_load_offset_addr ∧
    WU_decode_o_offset (WU_record blob i) = (ws.getD i w0).o_store_offset_addr ∧
    WU_decode_step_1 (WU_record blob i) = (ws.getD i w0).step_1_pos ∧
    WU_decode_step_2 (WU_record blob i) = (ws.getD i w0).step_2_pos ∧
    WU_decode_d_clip (WU_record blob i) = (ws.getD i w0).d_clip ∧
    WU_decode_o_clip (WU_record blob i) = (ws.getD i w0).o_clip ∧
    WU_decode_index (WU_record blob i) = i := by
  subst hws
  subst hblob
  have hrec : WU_record
      (WU_control_make_3x3 N H W o_H o_W pad_H pad_W dsN dsH dsW osN osH osW
        n_groups intl_factor) i =
      WU_encode_record
        ((WU_interleave
            (WU_control_make_3x3_w_info N H W o_H o_W pad_H pad_W dsN dsH dsW osN osH osW)
            intl_factor n_groups).getD i w0) (0 + i) :=
    WU_encode_from_get w0 _ 0 i hi
  have hmem : (WU_interleave
      (WU_control_make_3x3_w_info N H W o_H o_W pad_H pad_W dsN dsH dsW osN osH osW)
      intl_factor n_groups).getD i w0 ∈
      WU_control_make_3x3_w_info N H W o_H o_W pad_H pad_W dsN dsH dsW osN osH osW :=
    WU_interleave_mem _ intl_factor n_groups _ (getD_mem _ i w0 hi)
  have hinr : WU_inRange ((WU_interleave
      (WU_control_make_3x3_w_info N H W o_H o_W pad_H pad_W dsN dsH dsW osN osH osW)
      intl_factor n_groups).getD i w0) := by
    have hmem2 := hmem
    unfold WU_control_make_3x3_w_info at hmem2
    exact WU_walk_go_inRange N H W o_H o_W pad_H pad_W dsN dsH dsW osN osH osW
      hN hoH hoW hpH hpW hd1 hd2 hd3 ho1 ho2 ho3 _ _ _ hmem2
  have hidx : i < 2 ^ 64 := by
    have hlen := (WU_interleave_perm
      (WU_control_make_3x3_w_info N H W o_H o_W pad_H pad_W dsN dsH dsW osN osH osW)
      intl_factor n_groups hintl hgrp).length_eq
    have hle := WU_walk_go_length_le N H W o_H o_W pad_H pad_W dsN dsH dsW osN osH osW
      (WU_total_tiles N o_H o_W + 1) ⟨0, 0, 0⟩
    have hXeq : WU_control_make_3x3_w_info N H W o_H o_W pad_H pad_W dsN dsH dsW osN osH osW =
        WU_walk_go N H W o_H o_W pad_H pad_W dsN dsH dsW osN osH osW
          (WU_total_tiles N o_H o_W + 1) ⟨0, 0, 0⟩ := rfl
    rw [← hXeq] at hle
    have h1 : WU_tiles_H o_H ≤ 2 ^ 16 := by
      unfold WU_tiles_H o_tile_step_H o_tile_H
      omega
    have h2 : WU_tiles_W o_W ≤ 2 ^ 16 := by
      unfold WU_tiles_W o_tile_step_W o_tile_W
      omega
    have h3 : WU_total_tiles N o_H o_W ≤ 2 ^ 16 * 2 ^ 16 * 2 ^ 16 := by
      unfold WU_total_tiles
      exact Nat.mul_le_mul (Nat.mul_le_mul hN h1) h2
    omega
  rw [hrec, Nat.zero_add]
  exact WU_record_decode _ i hinr hidx

theorem claim_C1_witness :
    0 < (WU_interleave (WU_control_make_3x3_w_info 1 2 2 2 2 0 0 1 1 1 1 1 1) 1 1).length ∧
    WU_decode_index (WU_record (WU_control_make_3x3 1 2 2 2 2 0 0 1 1 1 1 1 1 1 1) 0) = 0 := by
  have hlen1 : (WU_control_make_3x3_w_info 1 2 2 2 2 0 0 1 1 1 1 1 1).length = 1 := by
    rw [WU_w_info_length 1 2 2 2 2 0 0 1 1 1 1 1 1 (by decide) (by decide)]
    rfl
  have hlen : (WU_interleave (WU_control_make_3x3_w_info 1 2 2 2 2 0 0 1 1 1 1 1 1)
      1 1).length = 1 := by
    rw [(WU_interleave_perm (WU_control_make_3x3_w_info 1 2 2 2 2 0 0 1 1 1 1 1 1)
      1 1 (by decide) (by decide)).length_eq, hlen1]
  have hmain := claim_C1_roundtrip 1 2 2 2 2 0 0 1 1 1 1 1 1 1 1
    (WU_interleave (WU_control_make_3x3_w_info 1 2 2 2 2 0 0 1 1 1 1 1 1) 1 1)
    (WU_control_make_3x3 1 2 2 2 2 0 0 1 1 1 1 1 1 1 1) 0 ⟨0, 0, 0, 0, [], []⟩
    (by decide) (by decide) (by decide) (by decide) (by decide)
    (by decide) (by decide) (by decide) (by decide) (by decide) (by decide)
    (by decide) (by decide) rfl rfl (by rw [hlen]; decide)
  exact ⟨by rw [hlen]; decide, hmain.2.2.2.2.2.2⟩
